import Mathlib

/-!
# Eunoia Mental Health App — verification of the derived-state computation layer

Shallow embedding of the streak / achievement / emotion-aggregation logic of
`src/App.tsx` and `src/contexts/AppContext.tsx`.

Modelling conventions (JavaScript semantics):

* A JS `Date` normalized to a local calendar day (the code anchors dates at
  local noon and compares with `Math.round((a-b)/86400000)`, which on
  noon-anchored dates is exact day subtraction) is represented by its local
  calendar day number, an `Int`.  An unparseable `createdAt` yields an
  Invalid Date: every field is `NaN`, its day-key string is `"NaN-NaN-NaN"`
  and its `getTime()` is `NaN`.  We represent that day key by `none`.
  All `NaN` comparisons are false, and in an `Array.prototype.sort`
  comparator a `NaN` result counts as `+0` (ECMAScript `SortCompare`), so an
  invalid date ties with everything; we model the (stable) sort with a
  stable insertion sort in which ties keep the earlier element first.
* A JS `Set` / plain-object key table preserves first-insertion order; we
  model it by a first-occurrence deduplication (`jsDedup`) and by
  insertion-ordered association lists.
* `entry.mlAnalysis?.primary_emotion` is `Option String` (`none` when
  `mlAnalysis` or the label is absent).
* `Math.round(x)` for the nonnegative ratios appearing here is
  half-up rounding; on `(count/total)*100` we model it exactly as
  `(200*count + total) / (2*total)` in natural-number division, abstracting
  from binary floating point (all concrete inputs used below are
  float-exact).
-/

namespace Eunoia

/-- One journal entry, reduced to the fields the derived-state layer reads:
the local calendar day of `createdAt` (`none` = Invalid Date) and the
optional ML primary-emotion label. -/
structure JournalEntry where
  createdDay : Option Int
  primaryEmotion : Option String := none
deriving DecidableEq, Repr, Inhabited

/-! ## JS collection primitives: first-insertion dedup and stable sort -/

/-- First-occurrence deduplication, in insertion order: the key list of a JS
`Set` (or plain object) after inserting the elements of `l` in order.
(Keeping the head and deduplicating the tail before removing later copies of
the head yields exactly the first-occurrence order.) -/
def jsDedup {α : Type} [DecidableEq α] : List α → List α
  | [] => []
  | a :: l => a :: (jsDedup l).filter (fun b => b ≠ a)

/-- Insert `a` into `l`, before the first element `b` with `le a b`.
With a reflexive `le` this is the stable insertion step. -/
def insertBy {α : Type} (le : α → α → Bool) (a : α) : List α → List α
  | [] => [a]
  | b :: l => if le a b then a :: b :: l else b :: insertBy le a l

/-- Stable insertion sort with comparator `le` (models a stable
`Array.prototype.sort`). -/
def sortBy {α : Type} (le : α → α → Bool) : List α → List α
  | [] => []
  | a :: l => insertBy le a (sortBy le l)

theorem mem_jsDedup {α : Type} [DecidableEq α] :
    ∀ {l : List α} {a : α}, a ∈ jsDedup l ↔ a ∈ l := by
  intro l
  induction l with
  | nil => simp [jsDedup]
  | cons b l ih =>
    intro a
    by_cases hab : a = b
    · subst hab; simp [jsDedup]
    · simp [jsDedup, hab, ih, List.mem_filter]

theorem nodup_jsDedup {α : Type} [DecidableEq α] :
    ∀ l : List α, (jsDedup l).Nodup := by
  intro l
  induction l with
  | nil => simp [jsDedup]
  | cons a l ih =>
    refine List.nodup_cons.mpr ⟨?_, ih.filter _⟩
    intro hmem
    have := List.of_mem_filter hmem
    simp at this

theorem insertBy_perm {α : Type} (le : α → α → Bool) (a : α) :
    ∀ l : List α, List.Perm (insertBy le a l) (a :: l) := by
  intro l
  induction l with
  | nil => simp [insertBy]
  | cons b l ih =>
    by_cases h : le a b
    · simp [insertBy, h]
    · simp only [insertBy, h, if_neg, Bool.false_eq_true, if_false]
      exact (ih.cons b).trans (List.Perm.swap a b l)

theorem sortBy_perm {α : Type} (le : α → α → Bool) :
    ∀ l : List α, List.Perm (sortBy le l) l := by
  intro l
  induction l with
  | nil => simp [sortBy]
  | cons a l ih => exact (insertBy_perm le a (sortBy le l)).trans (ih.cons a)

theorem mem_sortBy {α : Type} {le : α → α → Bool} {l : List α} {a : α} :
    a ∈ sortBy le l ↔ a ∈ l :=
  (sortBy_perm le l).mem_iff

theorem length_sortBy {α : Type} (le : α → α → Bool) (l : List α) :
    (sortBy le l).length = l.length :=
  (sortBy_perm le l).length_eq

theorem nodup_sortBy {α : Type} {le : α → α → Bool} {l : List α}
    (h : l.Nodup) : (sortBy le l).Nodup :=
  ((sortBy_perm le l).nodup_iff).mpr h

/-- The sort comparator of the streak calculator,
`(a, b) => b.getTime() - a.getTime()` (descending); a `NaN` result (an
Invalid Date on either side) counts as `0`, i.e. as a tie, and
`insertBy`/`sortBy` keep tied elements in their original order. -/
def dayLE (a b : Option Int) : Bool :=
  match a, b with
  | some x, some y => decide (y ≤ x)
  | _, _ => true

/-- Descending order as a relation on optional days; pairs involving an
Invalid Date are unconstrained (the JS comparator cannot order them). -/
def DescOk (a b : Option Int) : Prop :=
  ∀ x y : Int, a = some x → b = some y → y ≤ x

theorem descOk_of_dayLE {a b : Option Int} (h : dayLE a b = true)
    (hb : ∃ y, b = some y) : DescOk a b := by
  intro x y hax hby
  subst hax; subst hby
  simpa [dayLE] using h

theorem descOk_of_not_dayLE {a b : Option Int} (h : ¬ dayLE a b = true) :
    DescOk b a := by
  intro x y hbx hay
  subst hbx; subst hay
  simp only [dayLE, decide_eq_true_eq] at h
  omega

theorem pairwise_insertBy {l : List (Option Int)} {a : Option Int}
    (hl : l.Pairwise DescOk) (ha : ∃ x, a = some x)
    (hval : ∀ o ∈ l, ∃ x, o = some x) :
    (insertBy dayLE a l).Pairwise DescOk := by
  induction l with
  | nil => simp [insertBy, hl]
  | cons b l ih =>
    rw [List.pairwise_cons] at hl
    by_cases h : dayLE a b
    · rw [insertBy, if_pos h]
      refine List.pairwise_cons.mpr ⟨?_, List.pairwise_cons.mpr hl⟩
      intro c hc
      rw [List.mem_cons] at hc
      rcases hc with hceq | hc
      · subst hceq; exact descOk_of_dayLE h (hval _ (List.mem_cons_self _ l))
      · intro x y hax hcy
        have hb : ∃ yb, b = some yb := hval b (by simp)
        obtain ⟨yb, hyb⟩ := hb
        have h1 : yb ≤ x := descOk_of_dayLE h ⟨yb, hyb⟩ x yb hax hyb
        have h2 : y ≤ yb := hl.1 _ hc yb y hyb hcy
        omega
    · rw [insertBy, if_neg h]
      refine List.pairwise_cons.mpr ⟨?_, ih hl.2 (fun o ho => hval o (by simp [ho]))⟩
      intro c hc
      have hc2 := (insertBy_perm dayLE a l).mem_iff.mp hc
      rw [List.mem_cons] at hc2
      rcases hc2 with hc2 | hc2
      · subst hc2; exact descOk_of_not_dayLE h
      · exact hl.1 c hc2

theorem pairwise_sortBy_dayLE {l : List (Option Int)}
    (hval : ∀ o ∈ l, ∃ x, o = some x) :
    (sortBy dayLE l).Pairwise DescOk := by
  induction l with
  | nil => simp [sortBy]
  | cons a l ih =>
    have hval2 : ∀ o ∈ sortBy dayLE l, ∃ x, o = some x := by
      intro o ho
      exact hval o (by simp [mem_sortBy.mp ho])
    exact pairwise_insertBy (ih (fun o ho => hval o (by simp [ho])))
      (hval a (by simp)) hval2

/-! ## `calculateStreaksFromEntries` (src/App.tsx)

The function reads the `entries` parameter, but its broken-streak early
return reads the surrounding component state `journalEntries` (a closure
variable), so the embedding takes both lists.  `todayDay` is the local
calendar day of `new Date()`. -/

/-- The day keys inserted into `uniqueDaysSet`, in insertion order: one
`some d` per distinct valid local day, plus at most one `none` (every
Invalid Date stringifies to the single key `"NaN-NaN-NaN"`). -/
def dayKeys (entries : List JournalEntry) : List (Option Int) :=
  jsDedup (entries.map (fun e => e.createdDay))

/-- `uniqueDays`: the day keys sorted most-recent-first by
`(a, b) => b.getTime() - a.getTime()`. -/
def uniqueDays (entries : List JournalEntry) : List (Option Int) :=
  sortBy dayLE (dayKeys entries)

/-- The `for (const entryDate of uniqueDays)` loop: count matches of
`checkDate`, decrementing it, and `break` at the first mismatch (an
Invalid Date never matches: `NaN !== 0`). -/
def walkStreak : Int → List (Option Int) → Nat
  | _, [] => 0
  | c, d :: rest => if d = some c then walkStreak (c - 1) rest + 1 else 0

/-- The fields of the `streaks` state that `calculateStreaksFromEntries`
writes (`journal`, `totalDays`, `totalEntries`). -/
structure StreakResult where
  journal : Nat
  totalDays : Nat
  totalEntries : Nat
deriving DecidableEq, Repr

/-- `calculateStreaksFromEntries(entries)` from src/App.tsx, with the
component state `journalEntries` (read by the broken-streak branch) and
today's local day passed explicitly. -/
def calculateStreaksFromEntries (entries journalEntries : List JournalEntry)
    (todayDay : Int) : StreakResult :=
  if entries.length = 0 then ⟨0, 0, 0⟩
  else
    match uniqueDays entries with
    | [] => ⟨0, 0, 0⟩    -- unreachable: a nonempty list has a day key
    | mostRecent :: restDays =>
      let uds := mostRecent :: restDays
      -- daysSinceLastEntry > 1  (false when mostRecent is an Invalid Date)
      let broken : Bool :=
        match mostRecent with
        | some d => decide (1 < todayDay - d)
        | none => false
      if broken then ⟨0, uds.length, journalEntries.length⟩
      else
        -- daysSinceLastEntry === 1 starts the walk from yesterday
        let checkStart : Int :=
          match mostRecent with
          | some d => if todayDay - d = 1 then todayDay - 1 else todayDay
          | none => todayDay
        ⟨walkStreak checkStart uds, uds.length, entries.length⟩

/-! ## Specification-side streak semantics

`specConsecutive` renders the spec invariant: "the number of consecutive
calendar days (ending today or yesterday) that contain at least one journal
ActivityEntry; a gap of more than one day resets it to zero." -/

/-- The set of (valid) local calendar days carrying at least one entry. -/
def entryDays (entries : List JournalEntry) : Finset Int :=
  (entries.filterMap (fun e => e.createdDay)).toFinset

/-- Length of the run of consecutive members of `S` going downward from
`c`, with explicit fuel (structural, so it evaluates by `decide`). -/
def runLenAux (S : Finset Int) : Int → Nat → Nat
  | _, 0 => 0
  | c, fuel + 1 => if c ∈ S then runLenAux S (c - 1) fuel + 1 else 0

/-- Number of consecutive calendar days in `S` ending at `c` (counting
down from `c`); `S.card + 1` fuel always suffices. -/
def runLength (S : Finset Int) (c : Int) : Nat :=
  runLenAux S c (S.card + 1)

/-- The spec streak: the consecutive-day run ending today, or ending
yesterday when today has no entry, and zero when neither day has one. -/
def specConsecutive (S : Finset Int) (today : Int) : Nat :=
  if today ∈ S then runLength S today
  else if today - 1 ∈ S then runLength S (today - 1)
  else 0

theorem runLenAux_le {S : Finset Int} : ∀ (c : Int) (f : Nat),
    runLenAux S c f ≤ f := by
  intro c f
  induction f generalizing c with
  | zero => simp [runLenAux]
  | succ f ih =>
    rw [runLenAux]
    by_cases h : c ∈ S
    · rw [if_pos h]
      exact Nat.succ_le_succ (ih (c - 1))
    · rw [if_neg h]
      exact Nat.zero_le _

theorem runLenAux_mem {S : Finset Int} : ∀ (c : Int) (f : Nat) (i : Nat),
    i < runLenAux S c f → c - i ∈ S := by
  intro c f
  induction f generalizing c with
  | zero => simp [runLenAux]
  | succ f ih =>
    intro i hi
    rw [runLenAux] at hi
    by_cases h : c ∈ S
    · rw [if_pos h] at hi
      match i with
      | 0 => simpa using h
      | j + 1 =>
        have := ih (c - 1) j (by omega)
        have heq : c - (j + 1 : Nat) = c - 1 - (j : Nat) := by
          push_cast
          ring
        rw [heq]
        exact this
    · rw [if_neg h] at hi
      omega

theorem runLenAux_not_mem {S : Finset Int} :
    ∀ (c : Int) (f : Nat), runLenAux S c f < f →
      c - (runLenAux S c f : Int) ∉ S := by
  intro c f
  induction f generalizing c with
  | zero => simp [runLenAux]
  | succ f ih =>
    intro hlt
    rw [runLenAux] at hlt ⊢
    by_cases h : c ∈ S
    · rw [if_pos h] at hlt ⊢
      have := ih (c - 1) (by omega)
      have heq : c - ((runLenAux S (c - 1) f + 1 : Nat) : Int)
          = c - 1 - (runLenAux S (c - 1) f : Nat) := by
        push_cast
        ring
      rw [heq]
      exact this
    · rw [if_neg h] at hlt ⊢
      simpa using h

/-- The run from `c` can never exhaust `S.card + 1` days: the days it
visits are distinct members of `S`. -/
theorem runLength_lt (S : Finset Int) (c : Int) :
    runLength S c < S.card + 1 := by
  rcases Nat.lt_or_ge (runLenAux S c (S.card + 1)) (S.card + 1) with h | h
  · exact h
  · exfalso
    have hle : runLenAux S c (S.card + 1) ≤ S.card + 1 := runLenAux_le c _
    have heq : runLenAux S c (S.card + 1) = S.card + 1 := le_antisymm hle h
    -- the map i ↦ c - i sends {0, ..., S.card} injectively into S
    have hsub : (Finset.range (S.card + 1)).image (fun i : Nat => c - i) ⊆ S := by
      intro x hx
      rw [Finset.mem_image] at hx
      obtain ⟨i, hi, rfl⟩ := hx
      rw [Finset.mem_range] at hi
      exact runLenAux_mem c (S.card + 1) i (by omega)
    have hcard : ((Finset.range (S.card + 1)).image (fun i : Nat => c - i)).card
        = S.card + 1 := by
      rw [Finset.card_image_of_injective _ (fun i j hij => by omega)]
      exact Finset.card_range _
    have := Finset.card_le_card hsub
    omega

theorem runLength_mem {S : Finset Int} {c : Int} {i : Nat}
    (h : i < runLength S c) : c - i ∈ S :=
  runLenAux_mem c _ i h

theorem runLength_not_mem (S : Finset Int) (c : Int) :
    c - (runLength S c : Int) ∉ S :=
  runLenAux_not_mem c _ (runLength_lt S c)

/-- `runLength` is characterised by: the first `N` days are present and the
`N`-th is not. -/
theorem runLength_eq_of {S : Finset Int} {c : Int} {N : Nat}
    (hmem : ∀ i : Nat, i < N → c - i ∈ S) (hnot : c - (N : Int) ∉ S) :
    runLength S c = N := by
  rcases Nat.lt_trichotomy (runLength S c) N with h | h | h
  · exact absurd (hmem _ h) (runLength_not_mem S c)
  · exact h
  · exact absurd (runLength_mem h) hnot

/-- The consecutive-day walk on a descending, duplicate-free list of valid
days bounded by `c` counts exactly the run of days `c, c-1, ...` present in
the list. -/
theorem walk_run : ∀ (N : Nat) (c : Int) (L : List (Option Int)),
    (∀ o ∈ L, ∃ x, o = some x ∧ x ≤ c) →
    L.Pairwise DescOk → L.Nodup →
    (∀ i : Nat, i < N → some (c - (i : Int)) ∈ L) →
    some (c - (N : Int)) ∉ L →
    walkStreak c L = N := by
  intro N
  induction N with
  | zero =>
    intro c L hval hpw hnd hmem hnot
    have hcL : some c ∉ L := by simpa using hnot
    match L with
    | [] => rfl
    | d :: rest =>
      rw [walkStreak, if_neg]
      intro hdc
      exact hcL (hdc ▸ List.mem_cons_self d rest)
  | succ N ih =>
    intro c L hval hpw hnd hmem hnot
    have hc : some c ∈ L := by simpa using hmem 0 (Nat.succ_pos N)
    match L with
    | [] => simp at hc
    | d :: rest =>
      obtain ⟨x, hdx, hxle⟩ := hval d (List.mem_cons_self d rest)
      have hdc : d = some c := by
        rcases List.mem_cons.mp hc with h | h
        · exact h.symm
        · have hrel : DescOk d (some c) := List.rel_of_pairwise_cons hpw h
          have hcx : c ≤ x := hrel x c hdx rfl
          rw [hdx]
          exact congrArg some (by omega)
      rw [walkStreak, if_pos hdc]
      have hdnotin : d ∉ rest := (List.nodup_cons.mp hnd).1
      have hstep : walkStreak (c - 1) rest = N := by
        apply ih
        · intro o ho
          obtain ⟨y, hoy, hyle⟩ := hval o (List.mem_cons_of_mem d ho)
          refine ⟨y, hoy, ?_⟩
          have : o ≠ d := fun hod => hdnotin (hod ▸ ho)
          have : y ≠ c := fun hyc => this (by rw [hoy, hdc, hyc])
          omega
        · exact (List.pairwise_cons.mp hpw).2
        · exact (List.nodup_cons.mp hnd).2
        · intro i hi
          have hmm : some (c - ((i + 1 : Nat) : Int)) ∈ d :: rest :=
            hmem (i + 1) (by omega)
          have heq : c - 1 - (i : Int) = c - ((i + 1 : Nat) : Int) := by
            push_cast
            ring
          rw [heq]
          rcases List.mem_cons.mp hmm with h | h
          · exfalso
            rw [hdc] at h
            have : c - ((i + 1 : Nat) : Int) = c := by
              exact Option.some_injective _ h
            omega
          · exact h
        · intro hmm
          have heq : c - 1 - (N : Int) = c - ((N + 1 : Nat) : Int) := by
            push_cast
            ring
          rw [heq] at hmm
          exact hnot (List.mem_cons_of_mem d hmm)
      omega

theorem mem_uniqueDays {entries : List JournalEntry} {o : Option Int} :
    o ∈ uniqueDays entries ↔ o ∈ entries.map (fun e => e.createdDay) := by
  rw [uniqueDays, mem_sortBy, dayKeys, mem_jsDedup]

theorem some_mem_uniqueDays_iff {entries : List JournalEntry} {d : Int} :
    some d ∈ uniqueDays entries ↔ d ∈ entryDays entries := by
  rw [mem_uniqueDays, entryDays, List.mem_toFinset, List.mem_filterMap]
  simp only [List.mem_map]

theorem nodup_uniqueDays (entries : List JournalEntry) :
    (uniqueDays entries).Nodup :=
  nodup_sortBy (nodup_jsDedup _)

/-- All entries valid (parseable `createdAt`) with local day at most
`today`: the situation of an entry list whose timestamps lie in the past. -/
def ValidEntries (entries : List JournalEntry) (today : Int) : Prop :=
  ∀ e ∈ entries, ∃ d, e.createdDay = some d ∧ d ≤ today

instance instDecidableValidEntries (entries : List JournalEntry)
    (today : Int) : Decidable (ValidEntries entries today) :=
  decidable_of_iff (∀ e ∈ entries, ∃ d ∈ e.createdDay.toList, d ≤ today) <| by
    unfold ValidEntries
    apply forall_congr'
    intro e
    apply imp_congr_right
    intro _
    cases hc : e.createdDay with
    | none => simp
    | some d => simp

theorem uniqueDays_valid {entries : List JournalEntry} {today : Int}
    (hval : ValidEntries entries today) :
    ∀ o ∈ uniqueDays entries, ∃ x, o = some x ∧ x ≤ today := by
  intro o ho
  rw [mem_uniqueDays, List.mem_map] at ho
  obtain ⟨e, he, rfl⟩ := ho
  exact hval e he

/-- The head of `uniqueDays` is the most recent (largest) entry day. -/
theorem head_uniqueDays_max {entries : List JournalEntry} {today mx : Int}
    {rest : List (Option Int)}
    (hval : ValidEntries entries today)
    (huds : uniqueDays entries = some mx :: rest) :
    ∀ d ∈ entryDays entries, d ≤ mx := by
  intro d hd
  have hmem : some d ∈ uniqueDays entries := some_mem_uniqueDays_iff.mpr hd
  rw [huds] at hmem
  rcases List.mem_cons.mp hmem with h | h
  · exact le_of_eq (Option.some_injective _ h)
  · have hpw : (uniqueDays entries).Pairwise DescOk :=
      pairwise_sortBy_dayLE (by
        intro o ho
        obtain ⟨x, hx, _⟩ := uniqueDays_valid hval o (by
          rw [uniqueDays, mem_sortBy]
          exact ho)
        exact ⟨x, hx⟩)
    rw [huds] at hpw
    exact List.rel_of_pairwise_cons hpw h mx d rfl rfl

/-- Core refinement: on a list of valid past entries,
`calculateStreaksFromEntries` returns exactly the spec streak — the
consecutive-day run ending today or yesterday, zero when the most recent
day is more than one day back. -/
theorem calc_journal_eq_spec (entries journalEntries : List JournalEntry)
    (today : Int) (hval : ValidEntries entries today) :
    (calculateStreaksFromEntries entries journalEntries today).journal
      = specConsecutive (entryDays entries) today := by
  match entries with
  | [] =>
    simp [calculateStreaksFromEntries, specConsecutive, entryDays]
  | e0 :: etl =>
    obtain ⟨d0, hd0, hd0le⟩ := hval e0 (List.mem_cons_self e0 etl)
    have hne : (e0 :: etl).length ≠ 0 := by simp
    have hd0mem : some d0 ∈ uniqueDays (e0 :: etl) := by
      rw [mem_uniqueDays, List.mem_map]
      exact ⟨e0, List.mem_cons_self e0 etl, hd0⟩
    set S := entryDays (e0 :: etl) with hS
    match huds : uniqueDays (e0 :: etl) with
    | [] => rw [huds] at hd0mem; simp at hd0mem
    | mostRecent :: restDays =>
      obtain ⟨mx, hmx, hmxle⟩ :=
        uniqueDays_valid hval mostRecent (huds ▸ List.mem_cons_self _ _)
      subst hmx
      have hmax : ∀ d ∈ S, d ≤ mx := head_uniqueDays_max hval huds
      have hmxS : mx ∈ S := by
        rw [hS, ← some_mem_uniqueDays_iff, huds]
        exact List.mem_cons_self _ _
      have hpw : (some mx :: restDays).Pairwise DescOk := by
        rw [← huds, uniqueDays]
        exact pairwise_sortBy_dayLE (by
          intro o ho
          obtain ⟨x, hx, _⟩ := uniqueDays_valid hval o (by
            rw [uniqueDays, mem_sortBy]
            exact ho)
          exact ⟨x, hx⟩)
      have hnd : (some mx :: restDays).Nodup := huds ▸ nodup_uniqueDays _
      have hvalL : ∀ o ∈ some mx :: restDays, ∃ x, o = some x ∧ x ≤ today :=
        fun o ho => uniqueDays_valid hval o (huds ▸ ho)
      rcases lt_trichotomy (today - mx) 1 with hdiff | hdiff | hdiff
      · -- mostRecent is today (today - mx = 0): walk from today
        have hmx_eq : mx = today := by omega
        have htodayS : today ∈ S := by rw [← hmx_eq]; exact hmxS
        have hspec : specConsecutive S today = runLength S today := by
          rw [specConsecutive, if_pos htodayS]
        rw [hspec]
        simp only [calculateStreaksFromEntries, if_neg hne, huds]
        rw [if_neg (show ¬ (decide (1 < today - mx) = true) from by
          simp only [decide_eq_true_eq]; omega)]
        rw [if_neg (show ¬ (today - mx = 1) from by omega)]
        apply walk_run
        · exact hvalL
        · exact hpw
        · exact hnd
        · intro i hi
          exact huds ▸ some_mem_uniqueDays_iff.mpr (runLength_mem hi)
        · intro hmm
          exact runLength_not_mem S today
            (some_mem_uniqueDays_iff.mp (huds ▸ hmm))
      · -- mostRecent is yesterday: walk from yesterday
        have hmx_eq : mx = today - 1 := by omega
        subst hmx_eq
        have htoday_not : today ∉ S := fun h => by
          have := hmax today h
          omega
        have hspec : specConsecutive S today = runLength S (today - 1) := by
          rw [specConsecutive, if_neg htoday_not, if_pos hmxS]
        rw [hspec]
        simp only [calculateStreaksFromEntries, if_neg hne, huds]
        rw [if_neg (show ¬ (decide (1 < today - (today - 1)) = true) from by
          simp only [decide_eq_true_eq]; omega)]
        rw [if_pos (by omega)]
        apply walk_run
        · intro o ho
          obtain ⟨x, hx, hxle⟩ := hvalL o ho
          refine ⟨x, hx, ?_⟩
          have : x ≤ today - 1 := by
            have hmem2 : some x ∈ uniqueDays (e0 :: etl) := by
              rw [huds, ← hx]
              exact ho
            exact hmax x (some_mem_uniqueDays_iff.mp hmem2)
          omega
        · exact hpw
        · exact hnd
        · intro i hi
          have := runLength_mem (S := S) (c := today - 1) hi
          exact huds ▸ some_mem_uniqueDays_iff.mpr this
        · intro hmm
          exact runLength_not_mem S (today - 1)
            (some_mem_uniqueDays_iff.mp (huds ▸ hmm))
      · -- broken: most recent day more than one day before today
        have htoday_not : today ∉ S := fun h => by
          have := hmax today h
          omega
        have hyest_not : today - 1 ∉ S := fun h => by
          have := hmax (today - 1) h
          omega
        have hspec : specConsecutive S today = 0 := by
          rw [specConsecutive, if_neg htoday_not, if_neg hyest_not]
        rw [hspec]
        simp only [calculateStreaksFromEntries, if_neg hne, huds]
        rw [if_pos (by simpa using hdiff)]

/-! ## `updateStreak('journal')` (src/contexts/AppContext.tsx)

The incremental updater keeps a per-kind counter and the last qualifying
day key (initially `''`, modelled `none`); day-key strings are abstracted
to calendar day numbers.  `addJournalEntry` prepends an entry created now
and then calls the updater. -/

/-- The journal slice of the `Streaks` context state:
`{ journal, lastJournalDate }`. -/
structure CtxStreakState where
  journal : Int
  lastJournalDate : Option Int
deriving DecidableEq, Repr

/-- `updateStreak('journal')`: unchanged if already updated today, `+1` if
the last qualifying day was yesterday, reset to `1` otherwise; the last
qualifying day becomes today. -/
def updateStreakJournal (today : Int) (st : CtxStreakState) : CtxStreakState :=
  if st.lastJournalDate = some today then st
  else if st.lastJournalDate = some (today - 1) then
    ⟨st.journal + 1, some today⟩
  else
    ⟨1, some today⟩

/-- Most recent entry day, `none` for an empty day set (the `''` initial
`lastJournalDate`). -/
def maxDay (S : Finset Int) : Option Int :=
  if h : S.Nonempty then some (S.max' h) else none

/-- The spec invariant on the incremental streak state: the counter is
non-negative and equals the consecutive-day count ending today or
yesterday, and the stored last date is the most recent entry day. -/
def StreakInv (entries : List JournalEntry) (today : Int)
    (st : CtxStreakState) : Prop :=
  0 ≤ st.journal ∧
  st.journal = (specConsecutive (entryDays entries) today : Int) ∧
  st.lastJournalDate = maxDay (entryDays entries)

theorem maxDay_mem {S : Finset Int} {m : Int} (h : maxDay S = some m) :
    m ∈ S := by
  rw [maxDay] at h
  split at h
  · exact (Option.some_injective _ h) ▸ S.max'_mem _
  · exact absurd h (by simp)

theorem maxDay_ub {S : Finset Int} {m : Int} (h : maxDay S = some m) :
    ∀ d ∈ S, d ≤ m := by
  intro d hd
  rw [maxDay] at h
  split at h
  · exact (Option.some_injective _ h) ▸ S.le_max' d hd
  · exact absurd h (by simp)

theorem maxDay_none {S : Finset Int} (h : maxDay S = none) : S = ∅ := by
  rw [maxDay] at h
  split at h
  · exact absurd h (by simp)
  · exact Finset.not_nonempty_iff_eq_empty.mp (by assumption)

theorem maxDay_insert_of_le {S : Finset Int} {t : Int}
    (h : ∀ d ∈ S, d ≤ t) : maxDay (insert t S) = some t := by
  have hne : (insert t S).Nonempty := ⟨t, Finset.mem_insert_self t S⟩
  rw [maxDay, dif_pos hne]
  have hub : ∀ d ∈ insert t S, d ≤ t := by
    intro d hd
    rcases Finset.mem_insert.mp hd with rfl | hd
    · exact le_refl _
    · exact h d hd
  exact congrArg some
    (le_antisymm ((insert t S).max'_le hne t hub)
      ((insert t S).le_max' t (Finset.mem_insert_self t S)))

theorem entryDays_le {entries : List JournalEntry} {today : Int}
    (hval : ValidEntries entries today) :
    ∀ d ∈ entryDays entries, d ≤ today := by
  intro d hd
  rw [entryDays, List.mem_toFinset, List.mem_filterMap] at hd
  obtain ⟨e, he, hde⟩ := hd
  obtain ⟨d2, hd2, hd2le⟩ := hval e he
  rw [hd2] at hde
  exact (Option.some_injective _ hde) ▸ hd2le

theorem entryDays_cons {e : JournalEntry} {d : Int}
    {entries : List JournalEntry} (h : e.createdDay = some d) :
    entryDays (e :: entries) = insert d (entryDays entries) := by
  rw [entryDays, entryDays, List.filterMap_cons, h, List.toFinset_cons]

theorem runLength_pos {S : Finset Int} {c : Int} (h : c ∈ S) :
    0 < runLength S c := by
  rw [runLength, runLenAux, if_pos h]
  omega

/-- Inserting an entry for today extends a run that ended yesterday by
exactly one day. -/
theorem runLength_insert_today {S : Finset Int} {today : Int} :
    runLength (insert today S) today = runLength S (today - 1) + 1 := by
  apply runLength_eq_of
  · intro i hi
    match i with
    | 0 => simp
    | j + 1 =>
      apply Finset.mem_insert_of_mem
      have hj : j < runLength S (today - 1) := by omega
      have hm := runLength_mem hj
      have heq : today - ((j + 1 : Nat) : Int) = today - 1 - (j : Int) := by
        push_cast
        ring
      rw [heq]
      exact hm
  · rw [Finset.mem_insert]
    push_neg
    constructor
    · intro hcontra
      have : ((runLength S (today - 1) + 1 : Nat) : Int) = 0 := by omega
      omega
    · intro hcontra
      apply runLength_not_mem S (today - 1)
      have heq : today - 1 - (runLength S (today - 1) : Int)
          = today - ((runLength S (today - 1) + 1 : Nat) : Int) := by
        push_cast
        ring
      rw [heq]
      exact hcontra

/-- One inductive step of the incremental invariant: recording an entry
for today and running `updateStreak('journal')` preserves `StreakInv`. -/
theorem updateStreak_preserves (entries : List JournalEntry) (today : Int)
    (e : JournalEntry) (st : CtxStreakState)
    (hval : ValidEntries entries today) (he : e.createdDay = some today)
    (hinv : StreakInv entries today st) :
    StreakInv (e :: entries) today (updateStreakJournal today st) := by
  obtain ⟨hnn, hj, hlast⟩ := hinv
  have hS' : entryDays (e :: entries) = insert today (entryDays entries) :=
    entryDays_cons he
  have hle : ∀ d ∈ entryDays entries, d ≤ today := entryDays_le hval
  by_cases h1 : st.lastJournalDate = some today
  · -- already updated today: `lastDate === today`
    have hmax : maxDay (entryDays entries) = some today := by
      rw [← hlast]
      exact h1
    have htodayS : today ∈ entryDays entries := maxDay_mem hmax
    have hins : insert today (entryDays entries) = entryDays entries :=
      Finset.insert_eq_self.mpr htodayS
    rw [updateStreakJournal, if_pos h1]
    exact ⟨hnn, by rw [hS', hins]; exact hj, by rw [hS', hins]; exact hlast⟩
  · by_cases h2 : st.lastJournalDate = some (today - 1)
    · -- last entry yesterday: continue the streak
      have hmax : maxDay (entryDays entries) = some (today - 1) := by
        rw [← hlast]
        exact h2
      have hyS : today - 1 ∈ entryDays entries := maxDay_mem hmax
      have hub : ∀ d ∈ entryDays entries, d ≤ today - 1 := maxDay_ub hmax
      have htodayNot : today ∉ entryDays entries := fun h => by
        have := hub today h
        omega
      have hspec : specConsecutive (entryDays entries) today
          = runLength (entryDays entries) (today - 1) := by
        rw [specConsecutive, if_neg htodayNot, if_pos hyS]
      have hspec' : specConsecutive (entryDays (e :: entries)) today
          = runLength (entryDays entries) (today - 1) + 1 := by
        rw [hS', specConsecutive,
          if_pos (Finset.mem_insert_self today (entryDays entries))]
        exact runLength_insert_today
      rw [updateStreakJournal, if_neg h1, if_pos h2]
      refine ⟨by show (0 : Int) ≤ st.journal + 1; omega, ?_, ?_⟩
      · show st.journal + 1 = _
        rw [hspec', hj, hspec]
        push_cast
        ring
      · show some today = maxDay (entryDays (e :: entries))
        rw [hS', maxDay_insert_of_le hle]
    · -- gap (or first entry): reset to 1
      have hyNot : today - 1 ∉ entryDays entries := by
        intro hcontra
        match hmd : maxDay (entryDays entries) with
        | none =>
          rw [maxDay_none hmd] at hcontra
          simp at hcontra
        | some m =>
          have hm1 : m ≠ today := fun hmeq => h1 (by rw [hlast, hmd, hmeq])
          have hm2 : m ≠ today - 1 := fun hmeq => h2 (by rw [hlast, hmd, hmeq])
          have hmle : m ≤ today := hle m (maxDay_mem hmd)
          have := maxDay_ub hmd (today - 1) hcontra
          omega
      have htodayNot : today ∉ entryDays entries := by
        intro hcontra
        match hmd : maxDay (entryDays entries) with
        | none =>
          rw [maxDay_none hmd] at hcontra
          simp at hcontra
        | some m =>
          have hm1 : m ≠ today := fun hmeq => h1 (by rw [hlast, hmd, hmeq])
          have hmle : m ≤ today := hle m (maxDay_mem hmd)
          have := maxDay_ub hmd today hcontra
          omega
      have hspec' : specConsecutive (entryDays (e :: entries)) today = 1 := by
        rw [hS', specConsecutive,
          if_pos (Finset.mem_insert_self today (entryDays entries))]
        apply runLength_eq_of (N := 1)
        · intro i hi
          match i with
          | 0 => simp
        · rw [Finset.mem_insert]
          push_neg
          exact ⟨by omega, by simpa using hyNot⟩
      rw [updateStreakJournal, if_neg h1, if_neg h2]
      refine ⟨by show (0 : Int) ≤ 1; omega, ?_, ?_⟩
      · show (1 : Int) = _
        rw [hspec']
        simp
      · show some today = maxDay (entryDays (e :: entries))
        rw [hS', maxDay_insert_of_le hle]

/-! ## `totalDays` bookkeeping -/

theorem length_jsDedup_eq_card {α : Type} [DecidableEq α] (l : List α) :
    (jsDedup l).length = l.toFinset.card := by
  have h1 : (jsDedup l).toFinset = l.toFinset := by
    ext a
    simp [List.mem_toFinset, mem_jsDedup]
  rw [← h1, List.toFinset_card_of_nodup (nodup_jsDedup l)]

/-- On a nonempty entry list, both exits of the calculator report
`uniqueDays.length` as `totalDays`. -/
theorem calc_totalDays {entries : List JournalEntry}
    (journalEntries : List JournalEntry) (today : Int)
    (hne : entries ≠ []) :
    (calculateStreaksFromEntries entries journalEntries today).totalDays
      = (uniqueDays entries).length := by
  match entries with
  | [] => exact absurd rfl hne
  | e0 :: etl =>
    have hlen : (e0 :: etl).length ≠ 0 := by simp
    match huds : uniqueDays (e0 :: etl) with
    | [] =>
      exfalso
      have : e0.createdDay ∈ uniqueDays (e0 :: etl) := by
        rw [mem_uniqueDays, List.mem_map]
        exact ⟨e0, List.mem_cons_self e0 etl, rfl⟩
      rw [huds] at this
      simp at this
    | mostRecent :: restDays =>
      simp only [calculateStreaksFromEntries, if_neg hlen, huds]
      split <;> rfl

/-- Distinct day keys = distinct valid days, plus the shared
`"NaN-NaN-NaN"` key if any entry is malformed. -/
theorem card_dayKeys (entries : List JournalEntry) :
    (entries.map (fun e => e.createdDay)).toFinset.card
      = (entries.filterMap (fun e => e.createdDay)).toFinset.card
        + (if ∃ e ∈ entries, e.createdDay = none then 1 else 0) := by
  set T := (entries.map (fun e => e.createdDay)).toFinset with hT
  have herase : T.erase none
      = (entries.filterMap (fun e => e.createdDay)).toFinset.image some := by
    ext o
    match o with
    | none =>
      simp [Finset.mem_erase, Finset.mem_image]
    | some d =>
      simp only [Finset.mem_erase, Finset.mem_image, hT, List.mem_toFinset,
        List.mem_map, List.mem_filterMap, ne_eq, reduceCtorEq,
        not_false_eq_true, true_and, Option.some_inj]
      aesop
  have himagecard :
      ((entries.filterMap (fun e => e.createdDay)).toFinset.image some).card
        = (entries.filterMap (fun e => e.createdDay)).toFinset.card :=
    Finset.card_image_of_injective _ (Option.some_injective _)
  by_cases hn : ∃ e ∈ entries, e.createdDay = none
  · obtain ⟨e, he, hce⟩ := hn
    have hmemT : none ∈ T := by
      rw [hT, List.mem_toFinset, List.mem_map]
      exact ⟨e, he, hce⟩
    rw [if_pos ⟨e, he, hce⟩]
    have hcOne := Finset.card_erase_add_one hmemT
    rw [herase, himagecard] at hcOne
    omega
  · rw [if_neg hn]
    have hnot : none ∉ T := by
      rw [hT, List.mem_toFinset, List.mem_map]
      rintro ⟨e, he, hce⟩
      exact hn ⟨e, he, hce⟩
    have := Finset.erase_eq_of_not_mem hnot
    rw [← himagecard, ← herase, this]
    omega

/-- `totalDays` in terms of the entry list: number of distinct valid days,
plus one for the invalid sentinel day when some entry is malformed. -/
theorem calc_totalDays_closed (entries journalEntries : List JournalEntry)
    (today : Int) :
    (calculateStreaksFromEntries entries journalEntries today).totalDays
      = (entries.filterMap (fun e => e.createdDay)).toFinset.card
        + (if ∃ e ∈ entries, e.createdDay = none then 1 else 0) := by
  match entries with
  | [] => simp [calculateStreaksFromEntries]
  | e0 :: etl =>
    rw [calc_totalDays journalEntries today (by simp)]
    rw [uniqueDays, length_sortBy, dayKeys, length_jsDedup_eq_card]
    exact card_dayKeys (e0 :: etl)

/-! ## Claims C1, C2, C3, C5, C6 -/

/-- C1 fails as stated: entries on each of the last three days cover every
one of the last `N = 2` consecutive days including today, yet the computed
journal streak is `3`, not exactly `N = 2`. -/
theorem C1_counterexample :
    (∀ i : Nat, i < 2 →
      ∃ e ∈ ([⟨some 100, none⟩, ⟨some 99, none⟩, ⟨some 98, none⟩] :
        List JournalEntry), e.createdDay = some (100 - (i : Int))) ∧
    (calculateStreaksFromEntries
      [⟨some 100, none⟩, ⟨some 99, none⟩, ⟨some 98, none⟩]
      [⟨some 100, none⟩, ⟨some 99, none⟩, ⟨some 98, none⟩] 100).journal = 3
    ∧ 3 ≠ 2 := by
  refine ⟨?_, by decide, by decide⟩
  intro i hi
  match i with
  | 0 => exact ⟨⟨some 100, none⟩, by decide, by decide⟩
  | 1 => exact ⟨⟨some 99, none⟩, by decide, by decide⟩

/-- C1 (amended): for valid past entries covering every one of the last
`N ≥ 1` consecutive days including today and none on the day before those,
the journal streak is exactly `N` (coverage alone only bounds it below). -/
theorem C1_streak_covers_lastN (entries journalEntries : List JournalEntry)
    (today : Int) (N : Nat)
    (hval : ValidEntries entries today) (hN : 1 ≤ N)
    (hcov : ∀ i : Nat, i < N → today - (i : Int) ∈ entryDays entries)
    (hgap : today - (N : Int) ∉ entryDays entries) :
    (calculateStreaksFromEntries entries journalEntries today).journal = N := by
  rw [calc_journal_eq_spec entries journalEntries today hval]
  have htoday : today ∈ entryDays entries := by
    have := hcov 0 (by omega)
    simpa using this
  rw [specConsecutive, if_pos htoday]
  exact runLength_eq_of hcov hgap

/-- Witness for C1: two entries on today and yesterday, `N = 2`. -/
theorem C1_streak_covers_lastN_witness :
    (calculateStreaksFromEntries [⟨some 100, none⟩, ⟨some 99, none⟩]
      [] 100).journal = 2 :=
  C1_streak_covers_lastN [⟨some 100, none⟩, ⟨some 99, none⟩] [] 100 2
    (by decide) (by decide) (by decide) (by decide)

/-- C2: for valid past entries, (1) if every distinct activity day is more
than one calendar day before today the streak is `0`; (2) today present
with yesterday missing gives a positive streak; (3) yesterday present with
today missing gives a positive streak. -/
theorem C2_streak_boundaries (entries journalEntries : List JournalEntry)
    (today : Int) (hval : ValidEntries entries today) :
    ((∀ d ∈ entryDays entries, d < today - 1) →
      (calculateStreaksFromEntries entries journalEntries today).journal
        = 0) ∧
    (today ∈ entryDays entries → today - 1 ∉ entryDays entries →
      0 < (calculateStreaksFromEntries entries journalEntries today).journal)
    ∧
    (today ∉ entryDays entries → today - 1 ∈ entryDays entries →
      0 < (calculateStreaksFromEntries entries journalEntries today).journal)
    := by
  rw [calc_journal_eq_spec entries journalEntries today hval]
  refine ⟨?_, ?_, ?_⟩
  · intro hfar
    have h1 : today ∉ entryDays entries := fun h => by
      have := hfar today h
      omega
    have h2 : today - 1 ∉ entryDays entries := fun h => by
      have := hfar (today - 1) h
      omega
    rw [specConsecutive, if_neg h1, if_neg h2]
  · intro htoday hyest
    rw [specConsecutive, if_pos htoday]
    exact runLength_pos htoday
  · intro htoday hyest
    rw [specConsecutive, if_neg htoday, if_pos hyest]
    exact runLength_pos hyest

/-- Witness for C2: the three boundary situations on concrete inputs. -/
theorem C2_streak_boundaries_witness :
    (calculateStreaksFromEntries [⟨some 97, none⟩] [] 100).journal = 0 ∧
    0 < (calculateStreaksFromEntries [⟨some 100, none⟩] [] 100).journal ∧
    0 < (calculateStreaksFromEntries [⟨some 99, none⟩] [] 100).journal :=
  ⟨(C2_streak_boundaries [⟨some 97, none⟩] [] 100 (by decide)).1
      (by decide),
   (C2_streak_boundaries [⟨some 100, none⟩] [] 100 (by decide)).2.1
      (by decide) (by decide),
   (C2_streak_boundaries [⟨some 99, none⟩] [] 100 (by decide)).2.2
      (by decide) (by decide)⟩

/-- C3: the stored journal streak invariant — non-negative and equal to
the consecutive-day count ending today or yesterday, a gap of more than
one day giving zero — is established wholesale by
`calculateStreaksFromEntries` and preserved by the incremental
`updateStreak('journal')` when an entry for today is recorded. -/
theorem C3_streak_invariant :
    (∀ (entries journalEntries : List JournalEntry) (today : Int),
      ValidEntries entries today →
      (calculateStreaksFromEntries entries journalEntries today).journal
        = specConsecutive (entryDays entries) today) ∧
    (∀ (entries : List JournalEntry) (today : Int) (e : JournalEntry)
      (st : CtxStreakState),
      ValidEntries entries today → e.createdDay = some today →
      StreakInv entries today st →
      StreakInv (e :: entries) today (updateStreakJournal today st)) :=
  ⟨calc_journal_eq_spec, updateStreak_preserves⟩

/-- Witness for C3: the recompute equality on a two-day list, and one
incremental step extending a one-day streak that ended yesterday. -/
theorem C3_streak_invariant_witness :
    (calculateStreaksFromEntries [⟨some 100, none⟩, ⟨some 99, none⟩]
        [] 100).journal
      = specConsecutive (entryDays [⟨some 100, none⟩, ⟨some 99, none⟩]) 100 ∧
    StreakInv [⟨some 100, none⟩, ⟨some 99, none⟩] 100
      (updateStreakJournal 100 ⟨1, some 99⟩) :=
  ⟨C3_streak_invariant.1 [⟨some 100, none⟩, ⟨some 99, none⟩] [] 100
      (by decide),
   C3_streak_invariant.2 [⟨some 99, none⟩] 100 ⟨some 100, none⟩ ⟨1, some 99⟩
      (by decide) (by decide)
      (by refine ⟨by decide, by decide, by decide⟩)⟩

/-- C5: the code is wrong on its broken-streak early return — it reports
`journalEntries.length` (the stale component state) instead of
`entries.length`.  At the first-fetch situation (state still empty, one
fetched entry three days back) it returns `totalDays = 1 > totalEntries
= 0`, violating `totalDistinctDays ≤ totalEntries` and the zero-iff-empty
property for a nonempty input list. -/
theorem C5_totalEntries_stale_closure :
    calculateStreaksFromEntries [⟨some 97, none⟩] [] 100
      = ⟨0, 1, 0⟩ ∧
    ¬ ((calculateStreaksFromEntries [⟨some 97, none⟩] [] 100).totalDays
        ≤ (calculateStreaksFromEntries [⟨some 97, none⟩] [] 100).totalEntries)
    ∧ ([] : List JournalEntry) ≠ [⟨some 97, none⟩] := by
  refine ⟨by decide, by decide, by decide⟩

/-- C6 fails as stated: a malformed `createdAt` is not dropped.  Alone it
still yields `totalDays = 1`; listed before a valid entry for today it
makes the Invalid Date the scanned `uniqueDays[0]`, every `NaN` comparison
is false, and the walk stops at once — streak `0` instead of the `1`
computed from the well-formed entry alone. -/
theorem C6_counterexample :
    calculateStreaksFromEntries [⟨none, none⟩] [⟨none, none⟩] 100
      = ⟨0, 1, 1⟩ ∧
    calculateStreaksFromEntries [⟨none, none⟩, ⟨some 100, none⟩]
        [⟨none, none⟩, ⟨some 100, none⟩] 100
      = ⟨0, 2, 2⟩ ∧
    calculateStreaksFromEntries [⟨some 100, none⟩] [⟨some 100, none⟩] 100
      = ⟨1, 1, 1⟩ := by
  refine ⟨by decide, by decide, by decide⟩

/-- C6 (amended): the computation is total, but malformed entries
contribute one shared invalid sentinel day to the distinct-day set —
`totalDays` is the number of distinct valid days plus one when any entry
is malformed — the sentinel never matches the consecutive-day walk (it
stops the walk where it is scanned), and on fully well-formed past input
the streak still equals the spec streak. -/
theorem C6_malformed_day_counted (entries journalEntries : List JournalEntry)
    (today : Int) :
    ((calculateStreaksFromEntries entries journalEntries today).totalDays
      = (entries.filterMap (fun e => e.createdDay)).toFinset.card
        + (if ∃ e ∈ entries, e.createdDay = none then 1 else 0)) ∧
    (∀ (c : Int) (L : List (Option Int)), walkStreak c (none :: L) = 0) ∧
    (ValidEntries entries today →
      (calculateStreaksFromEntries entries journalEntries today).journal
        = specConsecutive (entryDays entries) today) := by
  refine ⟨calc_totalDays_closed entries journalEntries today, ?_, ?_⟩
  · intro c L
    rw [walkStreak, if_neg (by simp)]
  · intro hval
    exact calc_journal_eq_spec entries journalEntries today hval

/-- Witness for C6 (amended): one malformed plus one valid entry. -/
theorem C6_malformed_day_counted_witness :
    (calculateStreaksFromEntries [⟨none, none⟩, ⟨some 100, none⟩] [] 100
      ).totalDays = 2 ∧
    (calculateStreaksFromEntries [⟨some 100, none⟩] [] 100).journal
      = specConsecutive (entryDays [⟨some 100, none⟩]) 100 := by
  constructor
  · have h := (C6_malformed_day_counted
      [⟨none, none⟩, ⟨some 100, none⟩] [] 100).1
    rw [h]
    decide
  · exact (C6_malformed_day_counted [⟨some 100, none⟩] [] 100).2.2
      (by decide)

/-! ## Milestones and goal achievements (src/App.tsx) -/

structure Milestone where
  days : Nat
  title : String
deriving DecidableEq, Repr

def streakMilestones : List Milestone :=
  [⟨7, "Week Warrior"⟩, ⟨14, "Mindful Master"⟩, ⟨30, "Wellness Champion"⟩,
   ⟨60, "Peace Pioneer"⟩, ⟨100, "Zen Legend"⟩]

def getCurrentMilestone (streak : Nat) : Option Milestone :=
  (sortBy (fun a b => decide (b.days ≤ a.days))
    (streakMilestones.filter (fun m => decide (streak ≥ m.days)))).head?

def getNextMilestone (streak : Nat) : Option Milestone :=
  streakMilestones.find? (fun m => decide (streak < m.days))

theorem days_of_mem_streakMilestones {m : Milestone}
    (hm : m ∈ streakMilestones) :
    m.days = 7 ∨ m.days = 14 ∨ m.days = 30 ∨ m.days = 60 ∨ m.days = 100 := by
  fin_cases hm <;> simp

theorem currentMilestone_spec (s : Nat) :
    (∀ m, getCurrentMilestone s = some m →
      m ∈ streakMilestones ∧ m.days ≤ s ∧
        ∀ m2 ∈ streakMilestones, m2.days ≤ s → m2.days ≤ m.days) ∧
    (getCurrentMilestone s = none → ∀ m2 ∈ streakMilestones, s < m2.days) := by
  rcases Nat.lt_or_ge s 7 with hs7 | hs7
  · have b7 : decide (s ≥ 7) = false := decide_eq_false (by omega)
    have b14 : decide (s ≥ 14) = false := decide_eq_false (by omega)
    have b30 : decide (s ≥ 30) = false := decide_eq_false (by omega)
    have b60 : decide (s ≥ 60) = false := decide_eq_false (by omega)
    have b100 : decide (s ≥ 100) = false := decide_eq_false (by omega)
    have ecur : getCurrentMilestone s = none := by
      simp [getCurrentMilestone, streakMilestones, List.filter,
        b7, b14, b30, b60, b100, sortBy, insertBy]
    constructor
    · intro m hm
      rw [ecur] at hm
      exact Option.noConfusion hm
    · intro _ m2 hm2
      rcases days_of_mem_streakMilestones hm2 with h|h|h|h|h <;> omega
  · rcases Nat.lt_or_ge s 14 with hs14 | hs14
    · have b7 : decide (s ≥ 7) = true := decide_eq_true (by omega)
      have b14 : decide (s ≥ 14) = false := decide_eq_false (by omega)
      have b30 : decide (s ≥ 30) = false := decide_eq_false (by omega)
      have b60 : decide (s ≥ 60) = false := decide_eq_false (by omega)
      have b100 : decide (s ≥ 100) = false := decide_eq_false (by omega)
      have ecur : getCurrentMilestone s = some ⟨7, "Week Warrior"⟩ := by
        simp [getCurrentMilestone, streakMilestones, List.filter,
          b7, b14, b30, b60, b100, sortBy, insertBy]
      constructor
      · intro m hm
        rw [ecur] at hm
        obtain rfl : (⟨7, "Week Warrior"⟩ : Milestone) = m := Option.some_inj.mp hm
        refine ⟨by decide, ?_, ?_⟩
        · show (7 : Nat) ≤ s
          omega
        · intro m2 hm2 hle
          show m2.days ≤ 7
          rcases days_of_mem_streakMilestones hm2 with h|h|h|h|h <;> omega
      · intro hnone
        rw [ecur] at hnone
        exact Option.noConfusion hnone
    · rcases Nat.lt_or_ge s 30 with hs30 | hs30
      · have b7 : decide (s ≥ 7) = true := decide_eq_true (by omega)
        have b14 : decide (s ≥ 14) = true := decide_eq_true (by omega)
        have b30 : decide (s ≥ 30) = false := decide_eq_false (by omega)
        have b60 : decide (s ≥ 60) = false := decide_eq_false (by omega)
        have b100 : decide (s ≥ 100) = false := decide_eq_false (by omega)
        have ecur : getCurrentMilestone s = some ⟨14, "Mindful Master"⟩ := by
          simp [getCurrentMilestone, streakMilestones, List.filter,
            b7, b14, b30, b60, b100, sortBy, insertBy]
        constructor
        · intro m hm
          rw [ecur] at hm
          obtain rfl : (⟨14, "Mindful Master"⟩ : Milestone) = m := Option.some_inj.mp hm
          refine ⟨by decide, ?_, ?_⟩
          · show (14 : Nat) ≤ s
            omega
          · intro m2 hm2 hle
            show m2.days ≤ 14
            rcases days_of_mem_streakMilestones hm2 with h|h|h|h|h <;> omega
        · intro hnone
          rw [ecur] at hnone
          exact Option.noConfusion hnone
      · rcases Nat.lt_or_ge s 60 with hs60 | hs60
        · have b7 : decide (s ≥ 7) = true := decide_eq_true (by omega)
          have b14 : decide (s ≥ 14) = true := decide_eq_true (by omega)
          have b30 : decide (s ≥ 30) = true := decide_eq_true (by omega)
          have b60 : decide (s ≥ 60) = false := decide_eq_false (by omega)
          have b100 : decide (s ≥ 100) = false := decide_eq_false (by omega)
          have ecur : getCurrentMilestone s = some ⟨30, "Wellness Champion"⟩ := by
            simp [getCurrentMilestone, streakMilestones, List.filter,
              b7, b14, b30, b60, b100, sortBy, insertBy]
          constructor
          · intro m hm
            rw [ecur] at hm
            obtain rfl : (⟨30, "Wellness Champion"⟩ : Milestone) = m := Option.some_inj.mp hm
            refine ⟨by decide, ?_, ?_⟩
            · show (30 : Nat) ≤ s
              omega
            · intro m2 hm2 hle
              show m2.days ≤ 30
              rcases days_of_mem_streakMilestones hm2 with h|h|h|h|h <;> omega
          · intro hnone
            rw [ecur] at hnone
            exact Option.noConfusion hnone
        · rcases Nat.lt_or_ge s 100 with hs100 | hs100
          · have b7 : decide (s ≥ 7) = true := decide_eq_true (by omega)
            have b14 : decide (s ≥ 14) = true := decide_eq_true (by omega)
            have b30 : decide (s ≥ 30) = true := decide_eq_true (by omega)
            have b60 : decide (s ≥ 60) = true := decide_eq_true (by omega)
            have b100 : decide (s ≥ 100) = false := decide_eq_false (by omega)
            have ecur : getCurrentMilestone s = some ⟨60, "Peace Pioneer"⟩ := by
              simp [getCurrentMilestone, streakMilestones, List.filter,
                b7, b14, b30, b60, b100, sortBy, insertBy]
            constructor
            · intro m hm
              rw [ecur] at hm
              obtain rfl : (⟨60, "Peace Pioneer"⟩ : Milestone) = m := Option.some_inj.mp hm
              refine ⟨by decide, ?_, ?_⟩
              · show (60 : Nat) ≤ s
                omega
              · intro m2 hm2 hle
                show m2.days ≤ 60
                rcases days_of_mem_streakMilestones hm2 with h|h|h|h|h <;> omega
            · intro hnone
              rw [ecur] at hnone
              exact Option.noConfusion hnone
          · have b7 : decide (s ≥ 7) = true := decide_eq_true (by omega)
            have b14 : decide (s ≥ 14) = true := decide_eq_true (by omega)
            have b30 : decide (s ≥ 30) = true := decide_eq_true (by omega)
            have b60 : decide (s ≥ 60) = true := decide_eq_true (by omega)
            have b100 : decide (s ≥ 100) = true := decide_eq_true (by omega)
            have ecur : getCurrentMilestone s = some ⟨100, "Zen Legend"⟩ := by
              simp [getCurrentMilestone, streakMilestones, List.filter,
                b7, b14, b30, b60, b100, sortBy, insertBy]
            constructor
            · intro m hm
              rw [ecur] at hm
              obtain rfl : (⟨100, "Zen Legend"⟩ : Milestone) = m := Option.some_inj.mp hm
              refine ⟨by decide, ?_, ?_⟩
              · show (100 : Nat) ≤ s
                omega
              · intro m2 hm2 hle
                show m2.days ≤ 100
                rcases days_of_mem_streakMilestones hm2 with h|h|h|h|h <;> omega
            · intro hnone
              rw [ecur] at hnone
              exact Option.noConfusion hnone

theorem nextMilestone_spec (s : Nat) :
    (∀ m, getNextMilestone s = some m →
      m ∈ streakMilestones ∧ s < m.days ∧
        ∀ m2 ∈ streakMilestones, s < m2.days → m.days ≤ m2.days) ∧
    (getNextMilestone s = none → ∀ m2 ∈ streakMilestones, m2.days ≤ s) := by
  rcases Nat.lt_or_ge s 7 with hs7 | hs7
  · have c7 : decide (s < 7) = true := decide_eq_true (by omega)
    have c14 : decide (s < 14) = true := decide_eq_true (by omega)
    have c30 : decide (s < 30) = true := decide_eq_true (by omega)
    have c60 : decide (s < 60) = true := decide_eq_true (by omega)
    have c100 : decide (s < 100) = true := decide_eq_true (by omega)
    have enext : getNextMilestone s = some ⟨7, "Week Warrior"⟩ := by
      simp [getNextMilestone, streakMilestones, List.find?, c7, c14, c30, c60, c100]
    constructor
    · intro m hm
      rw [enext] at hm
      obtain rfl : (⟨7, "Week Warrior"⟩ : Milestone) = m := Option.some_inj.mp hm
      refine ⟨by decide, ?_, ?_⟩
      · show s < (7 : Nat)
        omega
      · intro m2 hm2 hlt
        show (7 : Nat) ≤ m2.days
        rcases days_of_mem_streakMilestones hm2 with h|h|h|h|h <;> omega
    · intro hnone
      rw [enext] at hnone
      exact Option.noConfusion hnone
  · rcases Nat.lt_or_ge s 14 with hs14 | hs14
    · have c7 : decide (s < 7) = false := decide_eq_false (by omega)
      have c14 : decide (s < 14) = true := decide_eq_true (by omega)
      have c30 : decide (s < 30) = true := decide_eq_true (by omega)
      have c60 : decide (s < 60) = true := decide_eq_true (by omega)
      have c100 : decide (s < 100) = true := decide_eq_true (by omega)
      have enext : getNextMilestone s = some ⟨14, "Mindful Master"⟩ := by
        simp [getNextMilestone, streakMilestones, List.find?, c7, c14, c30, c60, c100]
      constructor
      · intro m hm
        rw [enext] at hm
        obtain rfl : (⟨14, "Mindful Master"⟩ : Milestone) = m := Option.some_inj.mp hm
        refine ⟨by decide, ?_, ?_⟩
        · show s < (14 : Nat)
          omega
        · intro m2 hm2 hlt
          show (14 : Nat) ≤ m2.days
          rcases days_of_mem_streakMilestones hm2 with h|h|h|h|h <;> omega
      · intro hnone
        rw [enext] at hnone
        exact Option.noConfusion hnone
    · rcases Nat.lt_or_ge s 30 with hs30 | hs30
      · have c7 : decide (s < 7) = false := decide_eq_false (by omega)
        have c14 : decide (s < 14) = false := decide_eq_false (by omega)
        have c30 : decide (s < 30) = true := decide_eq_true (by omega)
        have c60 : decide (s < 60) = true := decide_eq_true (by omega)
        have c100 : decide (s < 100) = true := decide_eq_true (by omega)
        have enext : getNextMilestone s = some ⟨30, "Wellness Champion"⟩ := by
          simp [getNextMilestone, streakMilestones, List.find?, c7, c14, c30, c60, c100]
        constructor
        · intro m hm
          rw [enext] at hm
          obtain rfl : (⟨30, "Wellness Champion"⟩ : Milestone) = m := Option.some_inj.mp hm
          refine ⟨by decide, ?_, ?_⟩
          · show s < (30 : Nat)
            omega
          · intro m2 hm2 hlt
            show (30 : Nat) ≤ m2.days
            rcases days_of_mem_streakMilestones hm2 with h|h|h|h|h <;> omega
        · intro hnone
          rw [enext] at hnone
          exact Option.noConfusion hnone
      · rcases Nat.lt_or_ge s 60 with hs60 | hs60
        · have c7 : decide (s < 7) = false := decide_eq_false (by omega)
          have c14 : decide (s < 14) = false := decide_eq_false (by omega)
          have c30 : decide (s < 30) = false := decide_eq_false (by omega)
          have c60 : decide (s < 60) = true := decide_eq_true (by omega)
          have c100 : decide (s < 100) = true := decide_eq_true (by omega)
          have enext : getNextMilestone s = some ⟨60, "Peace Pioneer"⟩ := by
            simp [getNextMilestone, streakMilestones, List.find?, c7, c14, c30, c60, c100]
          constructor
          · intro m hm
            rw [enext] at hm
            obtain rfl : (⟨60, "Peace Pioneer"⟩ : Milestone) = m := Option.some_inj.mp hm
            refine ⟨by decide, ?_, ?_⟩
            · show s < (60 : Nat)
              omega
            · intro m2 hm2 hlt
              show (60 : Nat) ≤ m2.days
              rcases days_of_mem_streakMilestones hm2 with h|h|h|h|h <;> omega
          · intro hnone
            rw [enext] at hnone
            exact Option.noConfusion hnone
        · rcases Nat.lt_or_ge s 100 with hs100 | hs100
          · have c7 : decide (s < 7) = false := decide_eq_false (by omega)
            have c14 : decide (s < 14) = false := decide_eq_false (by omega)
            have c30 : decide (s < 30) = false := decide_eq_false (by omega)
            have c60 : decide (s < 60) = false := decide_eq_false (by omega)
            have c100 : decide (s < 100) = true := decide_eq_true (by omega)
            have enext : getNextMilestone s = some ⟨100, "Zen Legend"⟩ := by
              simp [getNextMilestone, streakMilestones, List.find?, c7, c14, c30, c60, c100]
            constructor
            · intro m hm
              rw [enext] at hm
              obtain rfl : (⟨100, "Zen Legend"⟩ : Milestone) = m := Option.some_inj.mp hm
              refine ⟨by decide, ?_, ?_⟩
              · show s < (100 : Nat)
                omega
              · intro m2 hm2 hlt
                show (100 : Nat) ≤ m2.days
                rcases days_of_mem_streakMilestones hm2 with h|h|h|h|h <;> omega
            · intro hnone
              rw [enext] at hnone
              exact Option.noConfusion hnone
          · have c7 : decide (s < 7) = false := decide_eq_false (by omega)
            have c14 : decide (s < 14) = false := decide_eq_false (by omega)
            have c30 : decide (s < 30) = false := decide_eq_false (by omega)
            have c60 : decide (s < 60) = false := decide_eq_false (by omega)
            have c100 : decide (s < 100) = false := decide_eq_false (by omega)
            have enext : getNextMilestone s = none := by
              simp [getNextMilestone, streakMilestones, List.find?, c7, c14, c30, c60, c100]
            constructor
            · intro m hm
              rw [enext] at hm
              exact Option.noConfusion hm
            · intro _ m2 hm2
              rcases days_of_mem_streakMilestones hm2 with h|h|h|h|h <;> omega



/-- One row of the static `goalAchievements` table, reduced to the fields
the evaluation logic reads. -/
structure Achievement where
  id : String
  title : String
  goal : Nat
  atype : String
  achieved : Bool
deriving DecidableEq, Repr

/-- The `goalAchievements` array of src/App.tsx, as a function of the
current counts (`journalEntries.length`, `chatSessions.length`,
`positivityScore`, `streaks.journal`). -/
def goalAchievements (journalCount chatCount positivityScore journalStreak :
    Nat) : List Achievement :=
  [⟨"first_entry", "Journal Starter", 1, "entries",
      decide (journalCount ≥ 1)⟩,
   ⟨"ten_entries", "Daily Writer", 10, "entries",
      decide (journalCount ≥ 10)⟩,
   ⟨"fifty_entries", "Deep Thinker", 50, "entries",
      decide (journalCount ≥ 50)⟩,
   ⟨"hundred_entries", "Wisdom Keeper", 100, "entries",
      decide (journalCount ≥ 100)⟩,
   ⟨"ten_chats", "Chat Explorer", 10, "chats", decide (chatCount ≥ 10)⟩,
   ⟨"fifty_chats", "Conversation Pro", 50, "chats",
      decide (chatCount ≥ 50)⟩,
   ⟨"hundred_chats", "Chat Champion", 100, "chats",
      decide (chatCount ≥ 100)⟩,
   ⟨"high_positivity", "Optimist", 70, "positivity",
      decide (positivityScore ≥ 70)⟩,
   ⟨"consistent_week", "Streak Master", 7, "weekly",
      decide (journalStreak ≥ 7)⟩]

/-- The count an achievement's goal dimension refers to (spec side). -/
def countFor (atype : String)
    (journalCount chatCount positivityScore journalStreak : Nat) : Nat :=
  if atype = "entries" then journalCount
  else if atype = "chats" then chatCount
  else if atype = "positivity" then positivityScore
  else journalStreak

/-- C4: every achievement is marked achieved iff its dimension's count
meets its goal; the current milestone is the achieved milestone of maximum
threshold (none when none is achieved); the next milestone is the
unachieved milestone of minimum threshold (none when all are achieved). -/
theorem C4_achievements_milestones
    (journalCount chatCount positivityScore journalStreak s : Nat) :
    (∀ a ∈ goalAchievements journalCount chatCount positivityScore
        journalStreak,
      a.achieved = true ↔
        a.goal ≤ countFor a.atype journalCount chatCount positivityScore
          journalStreak) ∧
    (∀ m, getCurrentMilestone s = some m →
      m ∈ streakMilestones ∧ m.days ≤ s ∧
        ∀ m2 ∈ streakMilestones, m2.days ≤ s → m2.days ≤ m.days) ∧
    (getCurrentMilestone s = none → ∀ m2 ∈ streakMilestones, s < m2.days) ∧
    (∀ m, getNextMilestone s = some m →
      m ∈ streakMilestones ∧ s < m.days ∧
        ∀ m2 ∈ streakMilestones, s < m2.days → m.days ≤ m2.days) ∧
    (getNextMilestone s = none → ∀ m2 ∈ streakMilestones, m2.days ≤ s) := by
  refine ⟨?_, (currentMilestone_spec s).1, (currentMilestone_spec s).2,
    (nextMilestone_spec s).1, (nextMilestone_spec s).2⟩
  intro a ha
  fin_cases ha <;> simp [countFor]

/-- Witness for C4 at concrete counts (12 entries, 3 chats, positivity 80,
streak 20): `ten_entries` achieved, `fifty_entries` not, current milestone
14 days, next milestone 30 days. -/
theorem C4_achievements_milestones_witness :
    ((goalAchievements 12 3 80 20).get? 1 = some
      ⟨"ten_entries", "Daily Writer", 10, "entries", true⟩) ∧
    (10 ≤ countFor "entries" 12 3 80 20) ∧
    getCurrentMilestone 20 = some ⟨14, "Mindful Master"⟩ ∧
    (⟨14, "Mindful Master"⟩ : Milestone) ∈ streakMilestones ∧ 14 ≤ 20 ∧
    getNextMilestone 20 = some ⟨30, "Wellness Champion"⟩ := by
  have h1 := (C4_achievements_milestones 12 3 80 20 20).1
    ⟨"ten_entries", "Daily Writer", 10, "entries", decide ((12:Nat) ≥ 10)⟩
    (by decide)
  have h2 := (C4_achievements_milestones 12 3 80 20 20).2.1
    ⟨14, "Mindful Master"⟩ (by decide)
  refine ⟨by decide, ?_, by decide, h2.1, by omega, by decide⟩
  exact h1.mp (by decide)



/-! ## `getEmotionBreakdown` (src/App.tsx) -/

/-- `emotionCounts[emotion] = (emotionCounts[emotion] || 0) + 1` on an
insertion-ordered key table (a JS plain object). -/
def bump (l : List (String × Nat)) (k : String) : List (String × Nat) :=
  if l.any (fun p => p.1 = k) then
    l.map (fun p => if p.1 = k then (p.1, p.2 + 1) else p)
  else l ++ [(k, 1)]

/-- The loop body of the `journalEntries.forEach` that fills
`emotionCounts`: entries without a detected emotion are skipped by the
`if (entry.mlAnalysis?.primary_emotion)` guard. -/
def countStep (l : List (String × Nat)) (e : JournalEntry) :
    List (String × Nat) :=
  match e.primaryEmotion with
  | some em => bump l em
  | none => l

/-- The `emotionCounts` table: one count per detected `primary_emotion`. -/
def emotionCounts (entries : List JournalEntry) : List (String × Nat) :=
  entries.foldl countStep []

/-- `const total = Object.values(emotionCounts).reduce((a, b) => a + b, 0)`. -/
def emotionTotal (entries : List JournalEntry) : Nat :=
  ((emotionCounts entries).map (fun p => p.2)).sum

theorem any_key_eq_true {l : List (String × Nat)} {k : String}
    (h : k ∈ l.map (fun p => p.1)) :
    (l.any (fun p => p.1 = k)) = true := by
  rw [List.any_eq_true]
  rcases List.mem_map.mp h with ⟨q, hq, hk⟩
  exact ⟨q, hq, by simp [hk]⟩

theorem not_any_key {l : List (String × Nat)} {k : String}
    (h : k ∉ l.map (fun p => p.1)) :
    ¬ ((l.any (fun p => p.1 = k)) = true) := by
  rw [List.any_eq_true]
  rintro ⟨q, hq, hk⟩
  simp only [decide_eq_true_eq] at hk
  exact h (List.mem_map.mpr ⟨q, hq, hk⟩)

theorem map_upd_eq_self {l : List (String × Nat)} {k : String}
    (h : ∀ p ∈ l, p.1 ≠ k) :
    l.map (fun p => if p.1 = k then (p.1, p.2 + 1) else p) = l := by
  induction l with
  | nil => rfl
  | cons p rest ih =>
    simp only [List.map_cons, if_neg (h p (List.mem_cons_self p rest)),
      List.cons.injEq, true_and]
    exact ih (fun q hq => h q (List.mem_cons_of_mem p hq))

theorem keys_bump (l : List (String × Nat)) (k : String) :
    (bump l k).map (fun p => p.1)
      = if k ∈ l.map (fun p => p.1) then l.map (fun p => p.1)
        else l.map (fun p => p.1) ++ [k] := by
  rw [bump]
  by_cases h : k ∈ l.map (fun p => p.1)
  · rw [if_pos h, if_pos (any_key_eq_true h), List.map_map]
    apply List.map_congr_left
    intro p _
    by_cases hp : p.1 = k
    · simp [hp]
    · simp [hp]
  · rw [if_neg h, if_neg (not_any_key h)]
    simp

theorem keys_bump_nodup {l : List (String × Nat)} {k : String}
    (h : (l.map (fun p => p.1)).Nodup) :
    ((bump l k).map (fun p => p.1)).Nodup := by
  rw [keys_bump]
  by_cases hk : k ∈ l.map (fun p => p.1)
  · rw [if_pos hk]
    exact h
  · rw [if_neg hk]
    simp [List.nodup_append, h, hk]

theorem mem_keys_bump {l : List (String × Nat)} {k x : String} :
    x ∈ (bump l k).map (fun p => p.1)
      ↔ x ∈ l.map (fun p => p.1) ∨ x = k := by
  rw [keys_bump]
  by_cases hk : k ∈ l.map (fun p => p.1)
  · rw [if_pos hk]
    constructor
    · exact Or.inl
    · rintro (h | rfl)
      · exact h
      · exact hk
  · rw [if_neg hk]
    simp

theorem sum_map_upd {l : List (String × Nat)} {k : String}
    (hnd : (l.map (fun p => p.1)).Nodup)
    (hmem : k ∈ l.map (fun p => p.1)) :
    ((l.map (fun p => if p.1 = k then (p.1, p.2 + 1) else p)).map
        (fun p => p.2)).sum
      = ((l.map (fun p => p.2)).sum) + 1 := by
  induction l with
  | nil => simp at hmem
  | cons p rest ih =>
    simp only [List.map_cons, List.nodup_cons] at hnd
    by_cases hp : p.1 = k
    · have hrest : rest.map (fun q => if q.1 = k then (q.1, q.2 + 1) else q)
          = rest := by
        apply map_upd_eq_self
        intro q hq hqk
        exact hnd.1 (hp ▸ hqk ▸ List.mem_map.mpr ⟨q, hq, rfl⟩)
      simp only [List.map_cons, if_pos hp, hrest, List.sum_cons]
      omega
    · have hmem2 : k ∈ rest.map (fun q => q.1) := by
        rcases List.mem_map.mp hmem with ⟨q, hq, hk⟩
        rcases List.mem_cons.mp hq with rfl | hq2
        · exact absurd hk hp
        · exact List.mem_map.mpr ⟨q, hq2, hk⟩
      have := ih hnd.2 hmem2
      simp only [List.map_cons, if_neg hp, List.sum_cons]
      omega

theorem sum_bump {l : List (String × Nat)} {k : String}
    (hnd : (l.map (fun p => p.1)).Nodup) :
    ((bump l k).map (fun p => p.2)).sum
      = ((l.map (fun p => p.2)).sum) + 1 := by
  by_cases h : k ∈ l.map (fun p => p.1)
  · rw [bump, if_pos (any_key_eq_true h)]
    exact sum_map_upd hnd h
  · rw [bump, if_neg (not_any_key h)]
    simp



/-- Fold invariant for the `emotionCounts` table: keys stay duplicate-free,
keys are exactly the labels seen, and the counts total one per labelled
entry. -/
theorem emotionCounts_fold (entries : List JournalEntry) :
    ∀ acc : List (String × Nat), ((acc.map (fun p => p.1)).Nodup) →
      (((entries.foldl countStep acc).map (fun p => p.1)).Nodup ∧
       (∀ x, x ∈ (entries.foldl countStep acc).map (fun p => p.1)
          ↔ x ∈ acc.map (fun p => p.1)
            ∨ x ∈ entries.filterMap (fun e => e.primaryEmotion)) ∧
       ((entries.foldl countStep acc).map (fun p => p.2)).sum
          = (acc.map (fun p => p.2)).sum
            + (entries.filterMap (fun e => e.primaryEmotion)).length) := by
  induction entries with
  | nil =>
    intro acc h
    refine ⟨h, fun x => by simp, by simp⟩
  | cons e l ih =>
    intro acc h
    match he : e.primaryEmotion with
    | none =>
      have := ih acc h
      simp only [List.foldl_cons, countStep, he, List.filterMap_cons,
      List.length_nil]
      refine ⟨this.1, fun x => ?_, ?_⟩
      · rw [this.2.1 x]
      · rw [this.2.2]
    | some em =>
      have hbn : ((bump acc em).map (fun p => p.1)).Nodup := keys_bump_nodup h
      have := ih (bump acc em) hbn
      simp only [List.foldl_cons, countStep, he, List.filterMap_cons]
      refine ⟨this.1, fun x => ?_, ?_⟩
      · rw [this.2.1 x, mem_keys_bump]
        simp only [List.mem_cons]
        tauto
      · rw [this.2.2, sum_bump h]
        simp only [List.length_cons]
        omega

theorem keys_emotionCounts_nodup (entries : List JournalEntry) :
    ((emotionCounts entries).map (fun p => p.1)).Nodup := by
  rw [emotionCounts]
  exact (emotionCounts_fold entries [] (by simp)).1

theorem mem_keys_emotionCounts {entries : List JournalEntry} {x : String} :
    x ∈ (emotionCounts entries).map (fun p => p.1)
      ↔ x ∈ entries.filterMap (fun e => e.primaryEmotion) := by
  rw [emotionCounts, (emotionCounts_fold entries [] (by simp)).2.1 x]
  simp

/-- The counts total exactly the number of entries with a detected
emotion: undetected entries are excluded, not defaulted. -/
theorem emotionTotal_eq (entries : List JournalEntry) :
    emotionTotal entries
      = (entries.filterMap (fun e => e.primaryEmotion)).length := by
  rw [emotionTotal, emotionCounts,
    (emotionCounts_fold entries [] (by simp)).2.2]
  simp

/-- One bucket per distinct detected label. -/
theorem length_emotionCounts (entries : List JournalEntry) :
    (emotionCounts entries).length
      = (entries.filterMap (fun e => e.primaryEmotion)).toFinset.card := by
  have hlen : (emotionCounts entries).length
      = ((emotionCounts entries).map (fun p => p.1)).length := by
    rw [List.length_map]
  have hfs : ((emotionCounts entries).map (fun p => p.1)).toFinset
      = (entries.filterMap (fun e => e.primaryEmotion)).toFinset := by
    ext x
    simp only [List.mem_toFinset]
    exact mem_keys_emotionCounts
  rw [hlen, ← List.toFinset_card_of_nodup (keys_emotionCounts_nodup entries),
    hfs]



/-! Half-up rounding of `(count/total)*100`, modelled exactly as
`(200*count + total) / (2*total)`, and the bounds its sums satisfy. -/

theorem sum_roundPct_mul_le (t : Nat) : ∀ cs : List Nat,
    ((cs.map (fun c => (200 * c + t) / (2 * t))).sum) * (2 * t)
      ≤ 200 * cs.sum + cs.length * t := by
  intro cs
  induction cs with
  | nil => simp
  | cons c rest ih =>
    simp only [List.map_cons, List.sum_cons, List.length_cons]
    have h1 : ((200 * c + t) / (2 * t)) * (2 * t) ≤ 200 * c + t :=
      Nat.div_mul_le_self _ _
    have h2 : ((200 * c + t) / (2 * t)
          + (rest.map (fun c => (200 * c + t) / (2 * t))).sum) * (2 * t)
        = ((200 * c + t) / (2 * t)) * (2 * t)
          + ((rest.map (fun c => (200 * c + t) / (2 * t))).sum) * (2 * t) := by
      ring
    rw [h2]
    refine le_trans (Nat.add_le_add h1 ih) (le_of_eq ?_)
    ring

theorem le_roundPct_mul (t c : Nat) (ht : 1 ≤ t) :
    200 * c + t ≤ ((200 * c + t) / (2 * t)) * (2 * t) + (2 * t - 1) := by
  have h1 : (2 * t) * ((200 * c + t) / (2 * t)) + (200 * c + t) % (2 * t)
      = 200 * c + t := Nat.div_add_mod _ _
  have h2 : (200 * c + t) % (2 * t) ≤ 2 * t - 1 :=
    Nat.le_sub_one_of_lt (Nat.mod_lt _ (by omega))
  calc 200 * c + t
      = (2 * t) * ((200 * c + t) / (2 * t)) + (200 * c + t) % (2 * t) :=
        h1.symm
    _ ≤ (2 * t) * ((200 * c + t) / (2 * t)) + (2 * t - 1) :=
        Nat.add_le_add_left h2 _
    _ = ((200 * c + t) / (2 * t)) * (2 * t) + (2 * t - 1) := by
        rw [Nat.mul_comm]

theorem sum_le_roundPct_mul (t : Nat) (ht : 1 ≤ t) : ∀ cs : List Nat,
    200 * cs.sum + cs.length * t
      ≤ ((cs.map (fun c => (200 * c + t) / (2 * t))).sum) * (2 * t)
        + cs.length * (2 * t - 1) := by
  intro cs
  induction cs with
  | nil => simp
  | cons c rest ih =>
    simp only [List.map_cons, List.sum_cons, List.length_cons]
    have h1 := le_roundPct_mul t c ht
    have h2 : ((200 * c + t) / (2 * t)
          + (rest.map (fun c => (200 * c + t) / (2 * t))).sum) * (2 * t)
        = ((200 * c + t) / (2 * t)) * (2 * t)
          + ((rest.map (fun c => (200 * c + t) / (2 * t))).sum) * (2 * t) := by
      ring
    rw [h2]
    have h3 : 200 * (c + rest.sum) + (rest.length + 1) * t
        = (200 * c + t) + (200 * rest.sum + rest.length * t) := by
      ring
    rw [h3]
    have h4 := Nat.add_le_add h1 ih
    refine le_trans h4 (le_of_eq ?_)
    ring

theorem roundPct_sum_le_103 {t : Nat} (ht : 1 ≤ t) {cs : List Nat}
    (hsum : cs.sum ≤ t) (hlen : cs.length ≤ 6) :
    (cs.map (fun c => (200 * c + t) / (2 * t))).sum ≤ 103 := by
  have h1 := sum_roundPct_mul_le t cs
  have h2 : 200 * cs.sum + cs.length * t ≤ 103 * (2 * t) := by
    have ha : 200 * cs.sum ≤ 200 * t := Nat.mul_le_mul_left _ hsum
    have hb : cs.length * t ≤ 6 * t := Nat.mul_le_mul_right _ hlen
    calc 200 * cs.sum + cs.length * t ≤ 200 * t + 6 * t :=
          Nat.add_le_add ha hb
      _ = 103 * (2 * t) := by ring
  exact Nat.le_of_mul_le_mul_right (le_trans h1 h2) (by omega)

theorem roundPct_sum_bounds {t : Nat} (ht : 1 ≤ t) {cs : List Nat}
    (hsum : cs.sum = t) (hlen : cs.length ≤ 5) :
    98 ≤ (cs.map (fun c => (200 * c + t) / (2 * t))).sum ∧
      (cs.map (fun c => (200 * c + t) / (2 * t))).sum ≤ 102 := by
  constructor
  · by_contra hcon
    push_neg at hcon
    have hS : (cs.map (fun c => (200 * c + t) / (2 * t))).sum ≤ 97 := by
      omega
    have h2 := sum_le_roundPct_mul t ht cs
    have h3 : ((cs.map (fun c => (200 * c + t) / (2 * t))).sum) * (2 * t)
        ≤ 97 * (2 * t) := Nat.mul_le_mul_right _ hS
    -- add `cs.length` to both sides to clear the `2*t - 1`
    have h4 : cs.length * (2 * t - 1) + cs.length = cs.length * (2 * t) := by
      have : 2 * t - 1 + 1 = 2 * t := by omega
      calc cs.length * (2 * t - 1) + cs.length
          = cs.length * ((2 * t - 1) + 1) := by ring
        _ = cs.length * (2 * t) := by rw [this]
    have h5 : 200 * cs.sum + cs.length * t + cs.length
        ≤ 97 * (2 * t) + cs.length * (2 * t) := by
      calc 200 * cs.sum + cs.length * t + cs.length
          ≤ (((cs.map (fun c => (200 * c + t) / (2 * t))).sum) * (2 * t)
              + cs.length * (2 * t - 1)) + cs.length :=
            Nat.add_le_add_right h2 _
        _ = ((cs.map (fun c => (200 * c + t) / (2 * t))).sum) * (2 * t)
              + cs.length * (2 * t) := by rw [Nat.add_assoc, h4]
        _ ≤ 97 * (2 * t) + cs.length * (2 * t) := Nat.add_le_add_right h3 _
    rw [hsum] at h5
    -- 200 t + L t + L ≤ 194 t + 2 L t  with L ≤ 5 forces 200 t ≤ 199 t
    have h6 : cs.length * (2 * t) = cs.length * t + cs.length * t := by ring
    have h7 : 200 * t ≤ 194 * t + cs.length * t := by
      have := h5
      rw [h6] at this
      have h97 : 97 * (2 * t) = 194 * t := by ring
      rw [h97] at this
      omega
    have h8 : cs.length * t ≤ 5 * t := Nat.mul_le_mul_right _ hlen
    have h9 : 200 * t ≤ 199 * t := by omega
    have h10 : 200 ≤ 199 := Nat.le_of_mul_le_mul_right h9 (by omega)
    omega
  · by_contra hcon
    push_neg at hcon
    have hS : 103 ≤ (cs.map (fun c => (200 * c + t) / (2 * t))).sum := by
      omega
    have h1 := sum_roundPct_mul_le t cs
    have h2 : 103 * (2 * t)
        ≤ ((cs.map (fun c => (200 * c + t) / (2 * t))).sum) * (2 * t) :=
      Nat.mul_le_mul_right _ hS
    have h3 : 200 * cs.sum + cs.length * t ≤ 205 * t := by
      rw [hsum]
      have := Nat.mul_le_mul_right t hlen
      omega
    have h4 : 103 * (2 * t) ≤ 205 * t := le_trans h2 (le_trans h1 h3)
    have h5 : 206 * t ≤ 205 * t := by
      calc 206 * t = 103 * (2 * t) := by ring
        _ ≤ 205 * t := h4
    have h6 : 206 ≤ 205 := Nat.le_of_mul_le_mul_right h5 (by omega)
    omega



/-- The `emotionColors` palette with its gray fallback
(`emotionColors[emotion] || "#6B7280"`). -/
def emotionColors (emotion : String) : String :=
  if emotion = "anger" then "#EF4444"
  else if emotion = "joy" then "#10B981"
  else if emotion = "sadness" then "#3B82F6"
  else if emotion = "fear" then "#8B5CF6"
  else if emotion = "love" then "#EC4899"
  else if emotion = "excitement" then "#F59E0B"
  else if emotion = "gratitude" then "#14B8A6"
  else if emotion = "neutral" then "#9CA3AF"
  else if emotion = "optimism" then "#84CC16"
  else if emotion = "disappointment" then "#F97316"
  else if emotion = "nervousness" then "#A855F7"
  else if emotion = "caring" then "#06B6D4"
  else if emotion = "admiration" then "#6366F1"
  else if emotion = "amusement" then "#F472B6"
  else if emotion = "annoyance" then "#FB923C"
  else if emotion = "approval" then "#22C55E"
  else if emotion = "confusion" then "#A78BFA"
  else if emotion = "curiosity" then "#60A5FA"
  else if emotion = "desire" then "#F43F5E"
  else if emotion = "disgust" then "#84CC16"
  else if emotion = "embarrassment" then "#FCA5A5"
  else if emotion = "grief" then "#475569"
  else if emotion = "pride" then "#FBBF24"
  else if emotion = "realization" then "#38BDF8"
  else if emotion = "relief" then "#86EFAC"
  else if emotion = "remorse" then "#94A3B8"
  else if emotion = "surprise" then "#FCD34D"
  else "#6B7280"

/-- `emotion.charAt(0).toUpperCase() + emotion.slice(1)`. -/
def capitalize (s : String) : String :=
  match s.toList with
  | [] => ""
  | c :: cs => String.mk (c.toUpper :: cs)

/-- One slice of the pie chart: `{ name, value, color }`. -/
structure EmotionBucket where
  name : String
  value : Nat
  color : String
deriving DecidableEq, Repr

/-- `getEmotionBreakdown` from src/App.tsx: placeholder buckets for an
empty list or no detected emotions; otherwise integer percentages
(`Math.round((count/total)*100)`, modelled exactly), sorted descending by
value and capped at the top six. -/
def getEmotionBreakdown (journalEntries : List JournalEntry) :
    List EmotionBucket :=
  if journalEntries.length = 0 then [⟨"No data yet", 100, "#E5E7EB"⟩]
  else if emotionTotal journalEntries = 0 then
    [⟨"Analyzing...", 100, "#E5E7EB"⟩]
  else
    (sortBy (fun a b => decide (b.value ≤ a.value))
      ((emotionCounts journalEntries).map (fun p =>
        (⟨capitalize p.1,
          (200 * p.2 + emotionTotal journalEntries)
            / (2 * emotionTotal journalEntries),
          emotionColors p.1⟩ : EmotionBucket)))).take 6

theorem breakdown_values_subperm (entries : List JournalEntry)
    (hne : ¬ entries.length = 0) (htot : ¬ emotionTotal entries = 0) :
    List.Subperm ((getEmotionBreakdown entries).map (fun b => b.value))
      (((emotionCounts entries).map (fun p => p.2)).map
        (fun c => (200 * c + emotionTotal entries)
          / (2 * emotionTotal entries))) := by
  rw [getEmotionBreakdown, if_neg hne, if_neg htot]
  rw [List.map_take]
  have hperm := (sortBy_perm (fun a b : EmotionBucket =>
    decide (b.value ≤ a.value))
    ((emotionCounts entries).map (fun p =>
      (⟨capitalize p.1,
        (200 * p.2 + emotionTotal entries) / (2 * emotionTotal entries),
        emotionColors p.1⟩ : EmotionBucket)))).map (fun b => b.value)
  have hsub := (List.take_sublist 6 _).subperm.trans hperm.subperm
  have heq : (((emotionCounts entries).map (fun p =>
      (⟨capitalize p.1,
        (200 * p.2 + emotionTotal entries) / (2 * emotionTotal entries),
        emotionColors p.1⟩ : EmotionBucket))).map (fun b => b.value))
      = ((emotionCounts entries).map (fun p => p.2)).map
        (fun c => (200 * c + emotionTotal entries)
          / (2 * emotionTotal entries)) := by
    rw [List.map_map, List.map_map]
    rfl
  rw [heq] at hsub
  exact hsub



theorem breakdown_values_perm (entries : List JournalEntry)
    (hne : ¬ entries.length = 0) (htot : ¬ emotionTotal entries = 0)
    (hlen : (emotionCounts entries).length ≤ 6) :
    List.Perm ((getEmotionBreakdown entries).map (fun b => b.value))
      (((emotionCounts entries).map (fun p => p.2)).map
        (fun c => (200 * c + emotionTotal entries)
          / (2 * emotionTotal entries))) := by
  rw [getEmotionBreakdown, if_neg hne, if_neg htot]
  rw [List.take_of_length_le (by rw [length_sortBy, List.length_map]; exact hlen)]
  have hperm := (sortBy_perm (fun a b : EmotionBucket =>
    decide (b.value ≤ a.value))
    ((emotionCounts entries).map (fun p =>
      (⟨capitalize p.1,
        (200 * p.2 + emotionTotal entries) / (2 * emotionTotal entries),
        emotionColors p.1⟩ : EmotionBucket)))).map (fun b => b.value)
  have heq : (((emotionCounts entries).map (fun p =>
      (⟨capitalize p.1,
        (200 * p.2 + emotionTotal entries) / (2 * emotionTotal entries),
        emotionColors p.1⟩ : EmotionBucket))).map (fun b => b.value))
      = ((emotionCounts entries).map (fun p => p.2)).map
        (fun c => (200 * c + emotionTotal entries)
          / (2 * emotionTotal entries)) := by
    rw [List.map_map, List.map_map]
    rfl
  rw [heq] at hperm
  exact hperm

/-- C7 fails as stated: with counts joy:5, anger:1, sadness:1, fear:1
(total 8) the half-up rounded percentages are 63, 13, 13, 13, which sum
to 102 — more than 100 — although only 4 < 6 distinct emotions occur. -/
theorem C7_counterexample :
    (((getEmotionBreakdown
      [⟨some 0, some "joy"⟩, ⟨some 0, some "joy"⟩, ⟨some 0, some "joy"⟩,
       ⟨some 0, some "joy"⟩, ⟨some 0, some "joy"⟩, ⟨some 0, some "anger"⟩,
       ⟨some 0, some "sadness"⟩, ⟨some 0, some "fear"⟩]).map
        (fun b => b.value)).sum = 102) ∧
    (([⟨some 0, some "joy"⟩, ⟨some 0, some "joy"⟩, ⟨some 0, some "joy"⟩,
       ⟨some 0, some "joy"⟩, ⟨some 0, some "joy"⟩, ⟨some 0, some "anger"⟩,
       ⟨some 0, some "sadness"⟩, ⟨some 0, some "fear"⟩] :
        List JournalEntry).filterMap
          (fun e => e.primaryEmotion)).toFinset.card = 4 ∧
    ¬ ((102 : Nat) ≤ 100) := by
  refine ⟨by decide, by decide, by decide⟩

/-- C7 (amended): with at least one detected emotion, the returned
percentages sum to at most 103 (each of at most six kept buckets can round
up by half a point), and when fewer than 6 distinct emotions occur the sum
lies within rounding error of 100: between 98 and 102. -/
theorem C7_emotion_percentages (entries : List JournalEntry)
    (hdet : ∃ e ∈ entries, e.primaryEmotion.isSome = true) :
    ((getEmotionBreakdown entries).map (fun b => b.value)).sum ≤ 103 ∧
    ((entries.filterMap (fun e => e.primaryEmotion)).toFinset.card < 6 →
      98 ≤ ((getEmotionBreakdown entries).map (fun b => b.value)).sum ∧
        ((getEmotionBreakdown entries).map (fun b => b.value)).sum ≤ 102) := by
  obtain ⟨e0, he0, hsome⟩ := hdet
  obtain ⟨em0, hem0⟩ := Option.isSome_iff_exists.mp hsome
  have hne : ¬ entries.length = 0 := by
    intro h
    rw [List.length_eq_zero] at h
    subst h
    simp at he0
  have hlab : em0 ∈ entries.filterMap (fun e => e.primaryEmotion) :=
    List.mem_filterMap.mpr ⟨e0, he0, hem0⟩
  have htot : 1 ≤ emotionTotal entries := by
    rw [emotionTotal_eq]
    exact List.length_pos.mpr (List.ne_nil_of_mem hlab)
  have htne : ¬ emotionTotal entries = 0 := by omega
  constructor
  · obtain ⟨w, hwperm, hwsub⟩ := breakdown_values_subperm entries hne htne
    obtain ⟨cs, hcs_sub, rfl⟩ := List.sublist_map_iff.mp hwsub
    have hsum_eq : ((getEmotionBreakdown entries).map (fun b => b.value)).sum
        = (cs.map (fun c => (200 * c + emotionTotal entries)
            / (2 * emotionTotal entries))).sum := hwperm.sum_eq.symm
    have hcssum : cs.sum ≤ emotionTotal entries :=
      hcs_sub.sum_le_sum (by simp)
    have hcslen : cs.length ≤ 6 := by
      have h1 := hwperm.length_eq
      rw [List.length_map] at h1
      have h3 : ((getEmotionBreakdown entries).map (fun b => b.value)).length
          ≤ 6 := by
        rw [getEmotionBreakdown, if_neg hne, if_neg htne, List.length_map,
          List.length_take]
        exact Nat.min_le_left _ _
      omega
    rw [hsum_eq]
    exact roundPct_sum_le_103 htot hcssum hcslen
  · intro hcard
    have hlen5 : (emotionCounts entries).length ≤ 5 := by
      rw [length_emotionCounts]
      omega
    have hperm := breakdown_values_perm entries hne htne (by omega)
    have hsum_eq : ((getEmotionBreakdown entries).map (fun b => b.value)).sum
        = (((emotionCounts entries).map (fun p => p.2)).map
            (fun c => (200 * c + emotionTotal entries)
              / (2 * emotionTotal entries))).sum := hperm.sum_eq
    rw [hsum_eq]
    exact roundPct_sum_bounds htot rfl
      (by rw [List.length_map]; exact hlen5)

/-- Witness for C7 (amended): a single joy entry gives one 100% bucket. -/
theorem C7_emotion_percentages_witness :
    ((getEmotionBreakdown [⟨some 0, some "joy"⟩]).map
      (fun b => b.value)).sum ≤ 103 ∧
    (98 ≤ ((getEmotionBreakdown [⟨some 0, some "joy"⟩]).map
        (fun b => b.value)).sum ∧
      ((getEmotionBreakdown [⟨some 0, some "joy"⟩]).map
        (fun b => b.value)).sum ≤ 102) :=
  ⟨(C7_emotion_percentages [⟨some 0, some "joy"⟩] (by decide)).1,
   (C7_emotion_percentages [⟨some 0, some "joy"⟩] (by decide)).2 (by decide)⟩



/-! ## `getMoodTrendData` (src/App.tsx)

Day-of-week is day number mod 7, with the anchor chosen so that a day
`≡ 0 (mod 7)` is a Sunday; `weekStart` is the current week's Sunday at
local midnight, and membership in `[weekStart, weekStart + 7)` models the
`entryDateNormalized >= weekStart && entryDateNormalized < weekEnd`
comparison (false for an Invalid Date, which is thereby excluded). -/

/-- The signed `emotionToScore` mapping with its `|| 0` fallback. -/
def emotionToScore (emotion : String) : Int :=
  if emotion = "joy" then 10
  else if emotion = "excitement" then 9
  else if emotion = "love" then 9
  else if emotion = "gratitude" then 8
  else if emotion = "optimism" then 7
  else if emotion = "amusement" then 7
  else if emotion = "admiration" then 7
  else if emotion = "pride" then 7
  else if emotion = "relief" then 5
  else if emotion = "caring" then 6
  else if emotion = "neutral" then 0
  else if emotion = "curiosity" then 2
  else if emotion = "surprise" then 1
  else if emotion = "confusion" then -2
  else if emotion = "nervousness" then -3
  else if emotion = "disappointment" then -4
  else if emotion = "sadness" then -6
  else if emotion = "fear" then -7
  else if emotion = "anger" then -8
  else if emotion = "grief" then -9
  else if emotion = "disgust" then -5
  else 0

/-- `entry.mlAnalysis?.primary_emotion || "neutral"`. -/
def entryEmotion (e : JournalEntry) : String :=
  e.primaryEmotion.getD "neutral"

def weekDays : List String := ["Sun", "Mon", "Tue", "Wed", "Thu", "Fri", "Sat"]

/-- One day's accumulator in `weekData`. -/
structure DayAgg where
  totalScore : Int
  count : Nat
  emotions : List String
  hasData : Bool
deriving DecidableEq, Repr

/-- In-place update of one index (the `weekData[dayName]` mutation). -/
def modifyIdx {α : Type} : List α → Nat → (α → α) → List α
  | [], _, _ => []
  | a :: l, 0, f => f a :: l
  | a :: l, i + 1, f => a :: modifyIdx l i f

/-- The current week's Sunday (day number of local midnight). -/
def weekStartOf (nowDay : Int) : Int := nowDay - nowDay.emod 7

/-- Adding one in-week entry to its day bucket. -/
def addToAgg (e : JournalEntry) (agg : DayAgg) : DayAgg :=
  ⟨agg.totalScore + emotionToScore (entryEmotion e), agg.count + 1,
   agg.emotions ++ [entryEmotion e], true⟩

/-- The body of the `journalEntries.forEach` filling `weekData`, split on
the parsed day (`none` = Invalid Date, never in week). -/
def trendStepDay (nowDay : Int) (wd : List DayAgg) (e : JournalEntry) :
    Option Int → List DayAgg
  | none => wd
  | some d =>
    if weekStartOf nowDay ≤ d ∧ d < weekStartOf nowDay + 7 then
      modifyIdx wd (d.emod 7).toNat (addToAgg e)
    else wd

/-- The body of the `journalEntries.forEach` filling `weekData`. -/
def trendStep (nowDay : Int) (wd : List DayAgg) (e : JournalEntry) :
    List DayAgg :=
  trendStepDay nowDay wd e e.createdDay

/-- `weekData` after all entries are bucketed (indices 0..6 = Sun..Sat). -/
def bucketWeek (nowDay : Int) (entries : List JournalEntry) : List DayAgg :=
  entries.foldl (trendStep nowDay) (List.replicate 7 ⟨0, 0, [], false⟩)

/-- `Object.keys(emotionCounts).reduce((a, b) => counts[a] > counts[b] ? a : b)`
over the day's emotion list (keys in first-occurrence order; JS throws on
an empty object, which `hasData` rules out — we return `""` there). -/
def dominantEmotion (emotions : List String) : String :=
  match jsDedup emotions with
  | [] => ""
  | k :: ks => ks.foldl (fun a b =>
      if emotions.count a > emotions.count b then a else b) k

/-- One chart point: `{ date, mood, emotion }`. -/
structure TrendPoint where
  date : String
  mood : Option Int
  emotion : Option String
deriving DecidableEq, Repr, Inhabited

/-- `getMoodTrendData` from src/App.tsx: all seven day labels, the day's
summed score (or null without data), and its dominant emotion. -/
def getMoodTrendData (journalEntries : List JournalEntry) (nowDay : Int) :
    List TrendPoint :=
  (List.range 7).map (fun j =>
    let agg := (bucketWeek nowDay journalEntries).getD j ⟨0, 0, [], false⟩
    if agg.hasData then
      ⟨weekDays.getD j "", some agg.totalScore,
        some (dominantEmotion agg.emotions)⟩
    else ⟨weekDays.getD j "", none, none⟩)

/-- Spec side: the entry falls in the current local week on weekday `j`. -/
def inWeekOnDay (nowDay : Int) (j : Nat) : Option Int → Bool
  | none => false
  | some d =>
    decide (weekStartOf nowDay ≤ d ∧ d < weekStartOf nowDay + 7)
      && decide ((d.emod 7).toNat = j)

/-- Spec side: the entry falls in the current local week on weekday `j`. -/
def inWeekOn (nowDay : Int) (j : Nat) (e : JournalEntry) : Bool :=
  inWeekOnDay nowDay j e.createdDay

/-- Spec side: the day falls anywhere in the current local week. -/
def inWeekDay (nowDay : Int) : Option Int → Bool
  | none => false
  | some d => decide (weekStartOf nowDay ≤ d ∧ d < weekStartOf nowDay + 7)

/-- Spec side: the entry falls anywhere in the current local week. -/
def inWeek (nowDay : Int) (e : JournalEntry) : Bool :=
  inWeekDay nowDay e.createdDay

/-- The current-week entries of weekday `j`, in list order. -/
def weekdayEntries (nowDay : Int) (entries : List JournalEntry) (j : Nat) :
    List JournalEntry :=
  entries.filter (inWeekOn nowDay j)

theorem length_modifyIdx {α : Type} :
    ∀ (l : List α) (i : Nat) (f : α → α), (modifyIdx l i f).length = l.length
  | [], _, _ => rfl
  | _ :: l, 0, f => by simp [modifyIdx]
  | a :: l, i + 1, f => by
    simp [modifyIdx, length_modifyIdx l i f]

theorem getD_modifyIdx_self {α : Type} :
    ∀ (l : List α) (i : Nat) (f : α → α) (d : α), i < l.length →
      (modifyIdx l i f).getD i d = f (l.getD i d)
  | [], i, f, d, h => by simp at h
  | a :: l, 0, f, d, _ => by simp [modifyIdx]
  | a :: l, i + 1, f, d, h => by
    simp only [modifyIdx, List.getD_cons_succ]
    exact getD_modifyIdx_self l i f d (by simpa using h)

theorem getD_modifyIdx_ne {α : Type} :
    ∀ (l : List α) (i j : Nat) (f : α → α) (d : α), i ≠ j →
      (modifyIdx l i f).getD j d = l.getD j d
  | [], _, _, _, _, _ => rfl
  | a :: l, 0, 0, f, d, h => absurd rfl h
  | a :: l, 0, j + 1, f, d, _ => by simp [modifyIdx]
  | a :: l, i + 1, 0, f, d, _ => by simp [modifyIdx]
  | a :: l, i + 1, j + 1, f, d, h => by
    simp only [modifyIdx, List.getD_cons_succ]
    exact getD_modifyIdx_ne l i j f d (by omega)



/-- The effect on one bucket of appending a batch of its entries. -/
def appendAgg (agg : DayAgg) (fl : List JournalEntry) : DayAgg :=
  ⟨agg.totalScore + (fl.map (fun e => emotionToScore (entryEmotion e))).sum,
   agg.count + fl.length,
   agg.emotions ++ fl.map entryEmotion,
   agg.hasData || !fl.isEmpty⟩

theorem appendAgg_nil (agg : DayAgg) : appendAgg agg [] = agg := by
  cases agg
  simp [appendAgg]

theorem appendAgg_cons (agg : DayAgg) (e : JournalEntry)
    (fl : List JournalEntry) :
    appendAgg agg (e :: fl) = appendAgg (addToAgg e agg) fl := by
  cases agg with
  | mk ts c em hd =>
    simp only [appendAgg, addToAgg, List.map_cons, List.sum_cons,
      List.length_cons, List.isEmpty_cons, DayAgg.mk.injEq]
    refine ⟨by ring, by omega, by rw [List.append_cons], by simp⟩

theorem length_trendStep (nowDay : Int) (wd : List DayAgg)
    (e : JournalEntry) : (trendStep nowDay wd e).length = wd.length := by
  cases he : e.createdDay with
  | none => simp only [trendStep, he, trendStepDay]
  | some d =>
    simp only [trendStep, he]
    rw [trendStepDay]
    by_cases hw : weekStartOf nowDay ≤ d ∧ d < weekStartOf nowDay + 7
    · rw [if_pos hw]
      exact length_modifyIdx wd _ _
    · rw [if_neg hw]

theorem emod7_toNat_lt (d : Int) : (d.emod 7).toNat < 7 := by
  have h1 : 0 ≤ d.emod 7 := Int.emod_nonneg d (by omega)
  have h2 : d.emod 7 < 7 := Int.emod_lt_of_pos d (by omega)
  omega

/-- Fold invariant of the week bucketing: each bucket accumulates exactly
its weekday's current-week entries, in order. -/
theorem bucketWeek_fold (nowDay : Int) :
    ∀ (l : List JournalEntry) (acc : List DayAgg), acc.length = 7 →
      ∀ j : Nat, j < 7 →
        (l.foldl (trendStep nowDay) acc).getD j ⟨0, 0, [], false⟩
          = appendAgg (acc.getD j ⟨0, 0, [], false⟩)
              (weekdayEntries nowDay l j) := by
  intro l
  induction l with
  | nil =>
    intro acc hlen j hj
    simp [weekdayEntries, appendAgg_nil]
  | cons e l ih =>
    intro acc hlen j hj
    rw [List.foldl_cons,
      ih (trendStep nowDay acc e) (by rw [length_trendStep, hlen]) j hj]
    match he : e.createdDay with
    | none =>
      have hs : trendStep nowDay acc e = acc := by
        simp only [trendStep, he, trendStepDay]
      have hf : inWeekOn nowDay j e = false := by
        simp only [inWeekOn, he, inWeekOnDay]
      have hwe : weekdayEntries nowDay (e :: l) j
          = weekdayEntries nowDay l j := by
        simp [weekdayEntries, List.filter_cons, hf]
      rw [hs, hwe]
    | some d =>
      by_cases hw : weekStartOf nowDay ≤ d ∧ d < weekStartOf nowDay + 7
      · have hs : trendStep nowDay acc e
            = modifyIdx acc (d.emod 7).toNat (addToAgg e) := by
          simp only [trendStep, he]
          rw [trendStepDay]
          exact if_pos hw
        by_cases hjj : (d.emod 7).toNat = j
        · have hf : inWeekOn nowDay j e = true := by
            simp only [inWeekOn, he, inWeekOnDay, Bool.and_eq_true,
              decide_eq_true_eq]
            exact ⟨hw, hjj⟩
          have hwe : weekdayEntries nowDay (e :: l) j
              = e :: weekdayEntries nowDay l j := by
            simp [weekdayEntries, List.filter_cons, hf]
          rw [hs, hjj, getD_modifyIdx_self acc j _ _ (by omega), hwe,
            appendAgg_cons]
        · have hf : inWeekOn nowDay j e = false := by
            simp only [inWeekOn, he, inWeekOnDay]
            simp [hjj]
          have hwe : weekdayEntries nowDay (e :: l) j
              = weekdayEntries nowDay l j := by
            simp [weekdayEntries, List.filter_cons, hf]
          rw [hs, getD_modifyIdx_ne acc _ j _ _ hjj, hwe]
      · have hs : trendStep nowDay acc e = acc := by
          simp only [trendStep, he]
          rw [trendStepDay]
          exact if_neg hw
        have hf : inWeekOn nowDay j e = false := by
          simp only [inWeekOn, he, inWeekOnDay]
          simp [hw]
        have hwe : weekdayEntries nowDay (e :: l) j
            = weekdayEntries nowDay l j := by
          simp [weekdayEntries, List.filter_cons, hf]
        rw [hs, hwe]

/-- Each bucket of `weekData`: the summed score, entry count, emotion list
and data flag of exactly that weekday's current-week entries. -/
theorem bucketWeek_getD (nowDay : Int) (entries : List JournalEntry)
    (j : Nat) (hj : j < 7) :
    (bucketWeek nowDay entries).getD j ⟨0, 0, [], false⟩
      = ⟨((weekdayEntries nowDay entries j).map
            (fun e => emotionToScore (entryEmotion e))).sum,
         (weekdayEntries nowDay entries j).length,
         (weekdayEntries nowDay entries j).map entryEmotion,
         !(weekdayEntries nowDay entries j).isEmpty⟩ := by
  rw [bucketWeek, bucketWeek_fold nowDay entries _ (by simp) j hj]
  have hrep : (List.replicate 7 (⟨0, 0, [], false⟩ : DayAgg)).getD j
      ⟨0, 0, [], false⟩ = ⟨0, 0, [], false⟩ := by
    rw [List.getD_eq_getElem?_getD, List.getElem?_replicate, if_pos hj]
    rfl
  rw [hrep]
  simp [appendAgg]



theorem getD_map_range {g : Nat → TrendPoint} {j : Nat} (hj : j < 7) :
    ((List.range 7).map g).getD j default = g j := by
  rw [List.getD_eq_getElem?_getD, List.getElem?_map, List.getElem?_range hj]
  rfl

/-- C9: `getMoodTrendData` always returns exactly 7 points in
Sunday-through-Saturday order; a day's score is the sum (not average) of
the emotion scores of all its current-week entries, and a day without
entries keeps its label with a null score. -/
theorem C9_weekly_trend (entries : List JournalEntry) (nowDay : Int) :
    (getMoodTrendData entries nowDay).length = 7 ∧
    (∀ j : Nat, j < 7 →
      ((getMoodTrendData entries nowDay).getD j default).date
          = weekDays.getD j "" ∧
      ((getMoodTrendData entries nowDay).getD j default).mood
          = (if (weekdayEntries nowDay entries j).isEmpty then none
             else some (((weekdayEntries nowDay entries j).map
               (fun e => emotionToScore (entryEmotion e))).sum))) := by
  constructor
  · rw [getMoodTrendData, List.length_map, List.length_range]
  · intro j hj
    rw [getMoodTrendData, getD_map_range hj,
      bucketWeek_getD nowDay entries j hj]
    cases hie : (weekdayEntries nowDay entries j).isEmpty
    · simp [hie]
    · simp [hie]

/-- Witness for C9: one joy entry on day 3 (a Wednesday), `nowDay = 3`. -/
theorem C9_weekly_trend_witness :
    (getMoodTrendData [⟨some 3, some "joy"⟩] 3).length = 7 ∧
    ((getMoodTrendData [⟨some 3, some "joy"⟩] 3).getD 3 default).date
        = weekDays.getD 3 "" ∧
    ((getMoodTrendData [⟨some 3, some "joy"⟩] 3).getD 3 default).mood
        = (if (weekdayEntries 3 [⟨some 3, some "joy"⟩] 3).isEmpty then none
           else some (((weekdayEntries 3 [⟨some 3, some "joy"⟩] 3).map
             (fun e => emotionToScore (entryEmotion e))).sum)) :=
  ⟨(C9_weekly_trend [⟨some 3, some "joy"⟩] 3).1,
   ((C9_weekly_trend [⟨some 3, some "joy"⟩] 3).2 3 (by decide)).1,
   ((C9_weekly_trend [⟨some 3, some "joy"⟩] 3).2 3 (by decide)).2⟩



theorem length_filterMap_emotion (entries : List JournalEntry) :
    (entries.filterMap (fun e => e.primaryEmotion)).length
      = (entries.filter (fun e => e.primaryEmotion.isSome)).length := by
  induction entries with
  | nil => rfl
  | cons e l ih =>
    cases he : e.primaryEmotion with
    | none => simp [List.filterMap_cons, List.filter_cons, he, ih]
    | some em => simp [List.filterMap_cons, List.filter_cons, he, ih]

/-- Summed per-day counts over the seven buckets equal the number of
current-week entries (labelled or not). -/
theorem sum_weekday_counts (nowDay : Int) (entries : List JournalEntry) :
    (Finset.range 7).sum
        (fun j => (weekdayEntries nowDay entries j).length)
      = (entries.filter (inWeek nowDay)).length := by
  induction entries with
  | nil => simp [weekdayEntries]
  | cons e l ih =>
    match he : e.createdDay with
    | none =>
      have hfw : inWeek nowDay e = false := by
        simp only [inWeek, he, inWeekDay]
      have hlen : ∀ j, (weekdayEntries nowDay (e :: l) j).length
          = (weekdayEntries nowDay l j).length := by
        intro j
        have hf : inWeekOn nowDay j e = false := by
          simp only [inWeekOn, he, inWeekOnDay]
        simp [weekdayEntries, List.filter_cons, hf]
      rw [Finset.sum_congr rfl (fun j _ => hlen j), ih,
        List.filter_cons, hfw]
      simp
    | some d =>
      by_cases hw : weekStartOf nowDay ≤ d ∧ d < weekStartOf nowDay + 7
      · have hfw : inWeek nowDay e = true := by
          simp only [inWeek, he, inWeekDay, decide_eq_true_eq]
          exact hw
        have hlen : ∀ j, (weekdayEntries nowDay (e :: l) j).length
            = (weekdayEntries nowDay l j).length
              + (if (d.emod 7).toNat = j then 1 else 0) := by
          intro j
          by_cases hjj : (d.emod 7).toNat = j
          · have hf : inWeekOn nowDay j e = true := by
              simp only [inWeekOn, he, inWeekOnDay, Bool.and_eq_true,
                decide_eq_true_eq]
              exact ⟨hw, hjj⟩
            simp [weekdayEntries, List.filter_cons, hf, hjj]
          · have hf : inWeekOn nowDay j e = false := by
              simp only [inWeekOn, he, inWeekOnDay]
              simp [hjj]
            simp [weekdayEntries, List.filter_cons, hf, hjj]
        rw [Finset.sum_congr rfl (fun j _ => hlen j),
          Finset.sum_add_distrib, ih, List.filter_cons, hfw]
        have hind : (Finset.range 7).sum
            (fun j => if (d.emod 7).toNat = j then 1 else 0) = 1 := by
          rw [Finset.sum_ite_eq (Finset.range 7) ((d.emod 7).toNat)
            (fun _ => 1)]
          rw [if_pos (Finset.mem_range.mpr (emod7_toNat_lt d))]
        rw [hind]
        simp
      · have hfw : inWeek nowDay e = false := by
          simp only [inWeek, he, inWeekDay]
          simp [hw]
        have hlen : ∀ j, (weekdayEntries nowDay (e :: l) j).length
            = (weekdayEntries nowDay l j).length := by
          intro j
          have hf : inWeekOn nowDay j e = false := by
            simp only [inWeekOn, he, inWeekOnDay]
            simp [hw]
          simp [weekdayEntries, List.filter_cons, hf]
        rw [Finset.sum_congr rfl (fun j _ => hlen j), ih,
          List.filter_cons, hfw]
        simp

/-- C8 fails as stated for `getEmotionBreakdown`: an entry without a
detected emotion is excluded, not counted as "neutral" — with one
unlabelled and one joy entry the distribution totals 1 ≠ 2 entries, and a
list with only unlabelled entries yields the "Analyzing..." placeholder
rather than a neutral bucket. -/
theorem C8_counterexample :
    emotionTotal [⟨some 0, none⟩, ⟨some 0, some "joy"⟩] = 1 ∧
    ([⟨some 0, none⟩, ⟨some 0, some "joy"⟩] : List JournalEntry).length
      = 2 ∧
    (1 : Nat) ≠ 2 ∧
    getEmotionBreakdown [⟨some 0, none⟩]
      = [⟨"Analyzing...", 100, "#E5E7EB"⟩] := by
  refine ⟨by decide, by decide, by decide, by decide⟩

/-- C8 (amended): only `getMoodTrendData` defaults a missing emotion to
"neutral" (score 0), so its per-day entry counts total every current-week
entry; `getEmotionBreakdown` instead excludes unlabelled entries, so its
distribution totals the number of entries with a detected emotion. -/
theorem C8_missing_emotion_defaults (entries : List JournalEntry)
    (nowDay : Int) :
    (emotionTotal entries
      = (entries.filter (fun e => e.primaryEmotion.isSome)).length) ∧
    ((Finset.range 7).sum
        (fun j => ((bucketWeek nowDay entries).getD j
          ⟨0, 0, [], false⟩).count)
      = (entries.filter (inWeek nowDay)).length) ∧
    (∀ e : JournalEntry, e.primaryEmotion = none →
      entryEmotion e = "neutral" ∧ emotionToScore (entryEmotion e) = 0) := by
  refine ⟨?_, ?_, ?_⟩
  · rw [emotionTotal_eq, length_filterMap_emotion]
  · rw [Finset.sum_congr rfl (fun j hj => by
      rw [bucketWeek_getD nowDay entries j (Finset.mem_range.mp hj)])]
    exact sum_weekday_counts nowDay entries
  · intro e he
    constructor
    · rw [entryEmotion, he]
      rfl
    · rw [entryEmotion, he]
      rfl

/-- Witness for C8 (amended): one labelled, one unlabelled entry on a
single current-week day. -/
theorem C8_missing_emotion_defaults_witness :
    (emotionTotal [⟨some 0, none⟩, ⟨some 0, some "joy"⟩]
      = (([⟨some 0, none⟩, ⟨some 0, some "joy"⟩] :
          List JournalEntry).filter
            (fun e => e.primaryEmotion.isSome)).length) ∧
    ((Finset.range 7).sum
        (fun j => ((bucketWeek 3 [⟨some 0, none⟩, ⟨some 0, some "joy"⟩]
          ).getD j ⟨0, 0, [], false⟩).count)
      = (([⟨some 0, none⟩, ⟨some 0, some "joy"⟩] :
          List JournalEntry).filter (inWeek 3)).length) ∧
    (entryEmotion ⟨some 0, none⟩ = "neutral" ∧
      emotionToScore (entryEmotion ⟨some 0, none⟩) = 0) :=
  ⟨(C8_missing_emotion_defaults
      [⟨some 0, none⟩, ⟨some 0, some "joy"⟩] 3).1,
   (C8_missing_emotion_defaults
      [⟨some 0, none⟩, ⟨some 0, some "joy"⟩] 3).2.1,
   (C8_missing_emotion_defaults
      [⟨some 0, none⟩, ⟨some 0, some "joy"⟩] 3).2.2
      ⟨some 0, none⟩ rfl⟩



/-! ## `getPositivityScore` (src/App.tsx) -/

/-- The fixed set of "positive" labels. -/
def positiveEmotions : List String :=
  ["joy", "excitement", "love", "gratitude", "optimism", "amusement",
   "admiration", "pride", "relief"]

/-- `positiveEmotions.includes(entry.mlAnalysis?.primary_emotion?.toLowerCase())`;
a missing emotion gives `includes(undefined)`, which is false. -/
def entryIsPositive (e : JournalEntry) : Bool :=
  match e.primaryEmotion with
  | some s => positiveEmotions.contains s.toLower
  | none => false

/-- `getPositivityScore` from src/App.tsx: 50 for an empty list, else the
half-up-rounded percentage of positive entries among the first (most
recent) up-to-10 entries. -/
def getPositivityScore (journalEntries : List JournalEntry) : Nat :=
  if journalEntries.length = 0 then 50
  else
    (200 * ((journalEntries.take 10).filter entryIsPositive).length
        + (journalEntries.take 10).length)
      / (2 * (journalEntries.take 10).length)

/-- The spec reading of the positivity score, for comparison: a window of
`min 10 n` most recent entries, a positive count over that window, and the
same half-up rounding; 50 (not 0) on no entries. -/
def specPositivityScore (entries : List JournalEntry) : Nat :=
  if entries = [] then 50
  else
    (200 * (entries.take 10).countP (fun e => entryIsPositive e)
        + min 10 entries.length)
      / (2 * min 10 entries.length)

/-- C10: the empty list scores 50; the score agrees with the spec-side
formulation over at most the 10 most recent entries (the window size is
`min 10 n`); entries beyond the first 10 never change the score; and an
entry without a detected emotion counts in the denominator but never as
positive. -/
theorem C10_positivity_score :
    getPositivityScore [] = 50 ∧
    (∀ entries : List JournalEntry,
      getPositivityScore entries = specPositivityScore entries) ∧
    (∀ entries : List JournalEntry, entries ≠ [] →
      getPositivityScore entries = getPositivityScore (entries.take 10)) ∧
    (∀ e : JournalEntry, e.primaryEmotion = none →
      entryIsPositive e = false) := by
  refine ⟨rfl, ?_, ?_, ?_⟩
  · intro entries
    match entries with
    | [] => rfl
    | e :: l =>
      have hne : ¬ (e :: l).length = 0 := by simp
      have hne2 : ¬ (e :: l) = [] := by simp
      rw [getPositivityScore, if_neg hne, specPositivityScore, if_neg hne2]
      rw [List.countP_eq_length_filter, List.length_take]
  · intro entries hne
    match entries with
    | e :: l =>
      have h1 : ¬ (e :: l).length = 0 := by simp
      have h2 : ¬ ((e :: l).take 10).length = 0 := by
        simp [List.length_take]
      rw [getPositivityScore, if_neg h1, getPositivityScore, if_neg h2,
        List.take_take]
      norm_num
  · intro e he
    rw [entryIsPositive, he]

/-- Witness for C10: eleven entries, one positive among the first ten and
a positive 11th that is ignored. -/
theorem C10_positivity_score_witness :
    getPositivityScore [] = 50 ∧
    getPositivityScore
        [⟨some 0, some "joy"⟩, ⟨some 0, none⟩, ⟨some 0, none⟩,
         ⟨some 0, none⟩, ⟨some 0, none⟩, ⟨some 0, none⟩, ⟨some 0, none⟩,
         ⟨some 0, none⟩, ⟨some 0, none⟩, ⟨some 0, none⟩,
         ⟨some 0, some "joy"⟩]
      = specPositivityScore
        [⟨some 0, some "joy"⟩, ⟨some 0, none⟩, ⟨some 0, none⟩,
         ⟨some 0, none⟩, ⟨some 0, none⟩, ⟨some 0, none⟩, ⟨some 0, none⟩,
         ⟨some 0, none⟩, ⟨some 0, none⟩, ⟨some 0, none⟩,
         ⟨some 0, some "joy"⟩] ∧
    entryIsPositive ⟨some 0, none⟩ = false :=
  ⟨C10_positivity_score.1,
   C10_positivity_score.2.1 _,
   C10_positivity_score.2.2.2 ⟨some 0, none⟩ rfl⟩


end Eunoia
